import Mathlib

/-!
Simple HTTP server: the per-connection protocol engine.

A shallow embedding of `src/main.cpp`: the `parser` cursor, the
`buffered_stream` head buffer with its `read_head`, `consume` and
`write_response` operations, `read_http_request`, and the `make_client`
connection handler.

Conventions of the embedding.

* A `char` is a `Char`; the program only compares characters for equality.
  A `std::string` or `std::string_view` value is a `List Char`.
* `std::size_t` values are natural numbers.  The one place where the program
  relies on wrap-around (`npos`, and `end -= pos` with `pos = npos`) is
  modelled explicitly with `2 ^ 64`.
* The transport is an explicit part of the state: the receive side is the
  list of chunks still to arrive, the send side is an acceptance function
  that says how many of the offered bytes a given send call takes.  A send
  or receive that fails with an error is not modelled; results are byte
  counts, and a count of zero is a result like any other.
* Undefined behaviour of the C++ program (an out-of-range `vector::erase`)
  is the result `none`.
* Loops are recursive functions on a fuel argument that the caller sets to
  a bound on the number of turns; `send_loop_fuel` and `read_head_loop_fuel`
  show that the result does not depend on the fuel beyond that bound.
* The lines printed with `fmt::println` and the accept loop of `make_server`
  are not part of the embedding.
-/

namespace Http

/-! ## Library functions used by the program -/

/-- The constant `std::string_view::npos`, the largest `std::size_t`. -/
def npos : Nat := 2 ^ 64 - 1

/-- Offset of the first element equal to `c`, or the length of the range when
there is none: `std::find(first, last, c) - first`. -/
def std_find (c : Char) : List Char → Nat
  | [] => 0
  | x :: xs => if x = c then 0 else std_find c xs + 1

/-- Offset of the first occurrence of `v` in the range, when there is one. -/
def first_match (v : List Char) : List Char → Option Nat
  | [] => if v = [] then some 0 else none
  | x :: xs =>
    if v.isPrefixOf (x :: xs) then some 0
    else
      match first_match v xs with
      | some i => some (i + 1)
      | none => none

/-- Offset of the first occurrence of `v`, or the length of the range when
there is none: `std::search(first, last, v.begin(), v.end()) - first`. -/
def std_search (s v : List Char) : Nat :=
  (first_match v s).getD s.length

/-- The member `std::string_view::find(v)`: offset of the first occurrence,
or `npos`. -/
def sv_find (s v : List Char) : Nat :=
  (first_match v s).getD npos

/-- The characters at offsets `[a, b)` of `mem`: the `string_view` built
from the two pointers `mem + a` and `mem + b`. -/
def slice (mem : List Char) (a b : Nat) : List Char :=
  (mem.take b).drop a

/-! ## `struct parser` -/

/-- The cursor `parser`: `it` and `end_` are offsets into the character
array `mem` that the two pointers of the C++ struct point into.  The array
is kept whole because `skip_whitespace` reads `*it` also when `it == end`. -/
structure parser where
  mem : List Char
  it : Nat
  end_ : Nat

/-- The range `[it, end)` the cursor still has to read. -/
def parser.range (p : parser) : List Char :=
  slice p.mem p.it p.end_

/-- Member `empty()`: `it == end`. -/
def parser.empty (p : parser) : Bool :=
  p.it == p.end_

/-- Member `find(c)`: the token up to the first `c` (or up to `end`), and the
cursor moved to the delimiter and, unless it is `end`, one past it. -/
def parser.find (p : parser) (c : Char) : List Char × parser :=
  let f := p.it + std_find c p.range
  let begin := p.it
  (slice p.mem begin f, { p with it := if f = p.end_ then f else f + 1 })

/-- The loop of `skip_whitespace`, run over the characters from `it` on.
The condition is `(it != end && *it == ' ') || *it == '\t'`, as the C++
operator precedence reads it.  The first equation is a read past the end of
the array, which the program never reaches. -/
def skip_whitespace_loop (end_ : Nat) : List Char → Nat → Nat
  | [], it => it
  | c :: cs, it =>
    if (it ≠ end_ ∧ c = ' ') ∨ c = '\t' then skip_whitespace_loop end_ cs (it + 1)
    else it

/-- Member `skip_whitespace()`. -/
def parser.skip_whitespace (p : parser) : parser :=
  { p with it := skip_whitespace_loop p.end_ (p.mem.drop p.it) p.it }

/-- Member `search(v)`: the token up to the first occurrence of `v` (or up to
`end`), and the cursor moved past that occurrence. -/
def parser.search (p : parser) (v : List Char) : List Char × parser :=
  let s := p.it + std_search p.range v
  let begin := p.it
  (slice p.mem begin s, { p with it := if s ≠ p.end_ then s + v.length else s })

/-! ## `struct request` and the header map -/

/-- The header map `std::unordered_map<std::string, std::string>`, as an
association list with unique keys. -/
abbrev header_map := List (List Char × List Char)

/-- The value stored for `key`, if any. -/
def header_map.lookup (m : header_map) (key : List Char) : Option (List Char) :=
  match m with
  | [] => none
  | (k, v) :: rest => if k = key then some v else header_map.lookup rest key

/-- The assignment `m[key] = value`: overwrite the entry of `key`, or add one. -/
def header_map.assign (m : header_map) (key value : List Char) : header_map :=
  match m with
  | [] => [(key, value)]
  | (k, v) :: rest =>
    if k = key then (k, value) :: rest else (k, v) :: header_map.assign rest key value

/-- The read `m[key]` of `operator[]`: the stored value, or the empty string
that `operator[]` inserts for a missing key. -/
def header_map.subscript (m : header_map) (key : List Char) : List Char :=
  (m.lookup key).getD []

/-- The record `request`. -/
structure request where
  method : List Char
  uri : List Char
  version : List Char
  headers : header_map
  body : List Char
deriving DecidableEq

/-- A default-constructed `request`. -/
def request.init : request :=
  { method := [], uri := [], version := [], headers := [], body := [] }

/-- The line terminator `"\r\n"`. -/
def crlf : List Char := ['\r', '\n']

/-- The header loop of `read_http_request`: `while (not p.empty())`.  Each
turn that does not leave the loop moves `it` forward, so `end - it` turns
are enough; `fuel` counts them. -/
def header_loop : Nat → parser → header_map → header_map
  | 0, _, h => h
  | fuel + 1, p, h =>
    if p.empty then h
    else
      let (key, p1) := p.find ':'
      let p2 := p1.skip_whitespace
      let (value, p3) := p2.search crlf
      header_loop fuel p3 (h.assign key value)

/-- The parse of `read_http_request`, lines 121 to 135: from the head that
`read_head` returned to the `request`. -/
def parse_head (head : List Char) : request :=
  if head = [] then request.init
  else
    let p : parser := { mem := head, it := 0, end_ := head.length - 2 }
    let (method, p1) := p.find ' '
    let (uri, p2) := p1.find ' '
    let (version, p3) := p2.search crlf
    { method := method, uri := uri, version := version,
      headers := header_loop (p3.end_ - p3.it + 1) p3 [], body := [] }

/-! ## The transport behind `Stream` -/

/-- The socket, as far as the handler can observe it.  `incoming` holds the
chunks of bytes still to arrive, in order; an empty chunk, or no chunk at
all, is a receive that reports zero bytes.  `accept i k` is the number of
bytes the `i`-th send call takes when it is offered `k` bytes.  `received`
and `sent` record the calls made so far. -/
structure transport where
  incoming : List (List Char)
  accept : Nat → Nat → Nat
  received : List (Nat × List Char)
  sent : List (List Char × Nat)

/-- The call `async_receive(stream, buffer(p, free))`: the bytes stored at
`p`.  A receive returns at most `free` bytes; what does not fit stays in
the socket for the next receive. -/
def async_receive (t : transport) (free : Nat) : List Char × transport :=
  match t.incoming with
  | [] => ([], { t with received := t.received ++ [(free, [])] })
  | c :: cs =>
    if c.length ≤ free then
      (c, { t with incoming := cs, received := t.received ++ [(free, c)] })
    else
      (c.take free,
        { t with incoming := c.drop free :: cs,
                 received := t.received ++ [(free, c.take free)] })

/-- The call `async_send(stream, buffer(p, k))` with the `k` bytes `offered`:
the number of bytes taken, which is at most `k`. -/
def async_send (t : transport) (offered : List Char) : Nat × transport :=
  let n := min (t.accept t.sent.length offered.length) offered.length
  (n, { t with sent := t.sent ++ [(offered, n)] })

/-- The bytes taken by the send calls `calls`. -/
def taken (calls : List (List Char × Nat)) : List Char :=
  (calls.map (fun e => e.1.take e.2)).flatten

/-- The bytes the peer has not delivered yet. -/
def transport.pending (t : transport) : Nat :=
  (t.incoming.map List.length).sum

/-- The bytes that went out on the wire: what each send call took. -/
def transport.output (t : transport) : List Char :=
  taken t.sent

/-! ## `struct buffered_stream` -/

/-- The members of `buffered_stream`; `buffer.size()` is `buffer.length`. -/
structure buffered_stream where
  stream : transport
  buffer : List Char
  pos : Nat
  end_ : Nat

/-- A freshly constructed `buffered_stream`: 1024 zero bytes, `pos = end = 0`. -/
def buffered_stream.init (t : transport) : buffered_stream :=
  { stream := t, buffer := List.replicate 1024 '\x00', pos := 0, end_ := 0 }

/-- The terminator that `string_view::find(sep)` looks for: the four
characters of `sep` before its `'\0'`. -/
def sep : List Char := ['\r', '\n', '\r', '\n']

/-- Member `consume()`.  `buffer.erase(begin, begin + pos)` is defined only
for `pos ≤ buffer.size()`; `end -= pos` wraps around modulo `2 ^ 64`. -/
def buffered_stream.consume (s : buffered_stream) : Option buffered_stream :=
  if s.pos ≤ s.buffer.length then
    some { s with
      buffer := s.buffer.drop s.pos
      end_ := if s.pos ≤ s.end_ then s.end_ - s.pos else s.end_ + 2 ^ 64 - s.pos
      pos := 0 }
  else none

/-- The loop of `read_head`.  A turn that does not return has received at
least one byte, so `fuel` may be the number of pending bytes plus one.  The
test `pos != npos` on the result of `find(sep)` is the case distinction on
`first_match`: an offset into a buffer is below `npos`, see
`sv_find_eq_npos`. -/
def read_head_loop : Nat → buffered_stream → List Char × buffered_stream
  | 0, s => ([], s)
  | fuel + 1, s =>
    let buffer :=
      if s.buffer.length = s.end_ then s.buffer ++ List.replicate s.buffer.length '\x00'
      else s.buffer
    let (data, t) := async_receive s.stream (buffer.length - s.end_)
    let n := data.length
    if n = 0 then ([], { s with stream := t, buffer := buffer })
    else
      let buffer := buffer.take s.end_ ++ data ++ buffer.drop (s.end_ + n)
      let end_ := s.end_ + n
      match first_match sep (buffer.take end_) with
      | none => read_head_loop fuel { stream := t, buffer := buffer, pos := npos, end_ := end_ }
      | some pos =>
        (buffer.take (pos + 4),
          { stream := t, buffer := buffer, pos := pos + 4, end_ := end_ })

/-- Member `read_head()`: the head, terminator included, or the empty view
when a receive reports zero bytes. -/
def buffered_stream.read_head (s : buffered_stream) : List Char × buffered_stream :=
  read_head_loop (s.stream.pending + 1) s

/-- One `do ... while (0 < n && (p += n) != data.size())` loop of
`write_response`, sending `data` from offset `p`.  Every turn but the last
moves `p` forward and leaves it below `data.size()`, so `data.size() + 1`
turns are enough. -/
def send_loop : Nat → List Char → Nat → transport → transport
  | 0, _, _, t => t
  | fuel + 1, data, p, t =>
    let (n, t1) := async_send t (data.drop p)
    if 0 < n ∧ p + n ≠ data.length then send_loop fuel data (p + n) t1 else t1

/-- The header block that `fmt::format` builds in `write_response`. -/
def response_head (message response : List Char) : List Char :=
  "HTTP/1.1 ".toList ++ message ++ "\r\nContent-Length: ".toList
    ++ (Nat.repr response.length).toList ++ "\r\n\r\n".toList

/-- Member `write_response(message, response)`. -/
def buffered_stream.write_response (s : buffered_stream) (message response : List Char) :
    buffered_stream :=
  let head := response_head message response
  let t1 := send_loop (head.length + 1) head 0 s.stream
  let t2 := send_loop (response.length + 1) response 0 t1
  { s with stream := t2 }

/-! ## `read_http_request`, `res` and `make_client` -/

/-- The coroutine `read_http_request`: read a head, parse it, `consume()`. -/
def read_http_request (s : buffered_stream) : Option (request × buffered_stream) :=
  let (head, s1) := s.read_head
  let r := parse_head head
  match s1.consume with
  | none => none
  | some s2 => some (r, s2)

/-- The global resource table `res`. -/
def res : header_map :=
  [("/".toList, "data/hello.html".toList), ("/fav.png".toList, "data/fav.png".toList)]

/-- The keep-alive decision `r.headers["Connection"] == "Keep-Alive"sv`. -/
def keep_alive_of (r : request) : Bool :=
  r.headers.subscript "Connection".toList == "Keep-Alive".toList

/-- The part of a turn of `make_client` after the request is read, for a
request with a non-empty method: the response, if any, and the new value
of `keep_alive`.  `files path` is the content that the `ifstream` on `path`
delivers. -/
def respond (files : List Char → List Char) (r : request) (s : buffered_stream) :
    buffered_stream × Bool :=
  let s1 :=
    if r.method = "GET".toList then
      match res.lookup r.uri with
      | none => s.write_response "404 NOT FOUND".toList "not found".toList
      | some path => s.write_response "200 OK".toList (files path)
    else s
  (s1, keep_alive_of r)

/-- One turn of the loop `while (keep_alive)` of `make_client`: the stream
afterwards and whether the loop goes round again.  An empty method writes
`550 ERROR` and returns from the coroutine. -/
def client_turn (files : List Char → List Char) (s : buffered_stream) :
    Option (buffered_stream × Bool) :=
  match read_http_request s with
  | none => none
  | some (r, s1) =>
    if r.method = [] then some (s1.write_response "550 ERROR".toList [], false)
    else some (respond files r s1)

/-- The loop of `make_client`.  A turn that asks for another one has read a
non-empty head, so the pending bytes plus one bound the number of turns. -/
def make_client_loop (files : List Char → List Char) :
    Nat → buffered_stream → Option buffered_stream
  | 0, s => some s
  | fuel + 1, s =>
    match client_turn files s with
    | none => none
    | some (s1, keep_alive) =>
      if keep_alive then make_client_loop files fuel s1 else some s1

/-- The coroutine `make_client(s)`, run to its end: the final state of the
connection, or `none` when the run meets undefined behaviour. -/
def make_client (files : List Char → List Char) (t : transport) : Option buffered_stream :=
  make_client_loop files (t.pending + 1) (buffered_stream.init t)

/-- A transport on which the chunks `chunks` arrive and every send takes all
the bytes it is offered. -/
def transport.of_chunks (chunks : List (List Char)) : transport :=
  { incoming := chunks, accept := fun _ k => k, received := [], sent := [] }


/-! ## Well-formed heads -/

/-- One header line of a well-formed head: the key, a colon, a run `ws` of
spaces and tabs, the value, and the line terminator. -/
structure header_line where
  key : List Char
  ws : List Char
  value : List Char

/-- The text of a header line: `key ':' ws value CRLF`. -/
def header_line.text (h : header_line) : List Char :=
  h.key ++ ':' :: h.ws ++ h.value ++ crlf

/-- The text of a well-formed head: the request line `m SP u SP v CRLF`, the
header lines, and the final CRLF. -/
def format_head (m u v : List Char) (hs : List header_line) : List Char :=
  m ++ ' ' :: u ++ ' ' :: v ++ crlf ++ (hs.map header_line.text).flatten ++ crlf

/-- The map obtained by inserting the pairs of the header lines in order. -/
def insert_all (hs : List header_line) : header_map :=
  hs.foldl (fun m h => m.assign h.key h.value) []

/-- The value of the last header line with key `k`, if there is one. -/
def last_value (hs : List header_line) (k : List Char) : Option (List Char) :=
  (hs.reverse.find? (fun h => decide (h.key = k))).map header_line.value

/-- The header line is well formed: the key holds no colon, CR or LF, `ws`
holds only spaces and tabs, and the value holds no CR or LF and does not
start with a space or a tab. -/
@[reducible] def header_line.well_formed (h : header_line) : Prop :=
  (∀ c ∈ h.key, c ≠ ':' ∧ c ≠ '\r' ∧ c ≠ '\n')
    ∧ (∀ c ∈ h.ws, c = ' ' ∨ c = '\t')
    ∧ (∀ c ∈ h.value, c ≠ '\r' ∧ c ≠ '\n')
    ∧ h.value.head? ≠ some ' ' ∧ h.value.head? ≠ some '\t'

/-- The cursor `p` stands in the array `A ++ R ++ Z` with `A` before `it`,
the range `[it, end)` equal to `R`, and `Z` from `end` on. -/
def parser.splits (p : parser) (A R Z : List Char) : Prop :=
  p.mem = A ++ R ++ Z ∧ p.it = A.length ∧ p.end_ = A.length + R.length

/-- The send calls `calls` offer `data` from offset `p` on, each one starting
where the bytes taken by the calls before it end. -/
def sends_from (data : List Char) : Nat → List (List Char × Nat) → Prop
  | _, [] => True
  | p, c :: rest => c.1 = data.drop p ∧ c.2 ≤ c.1.length ∧ sends_from data (p + c.2) rest

/-! ## The loops, one turn at a time -/

/-- One turn of the loop of `read_head`: the doubling step, the receive, the
store and the search.  The result is the value the coroutine returns with, or
the state in which the loop goes round again. -/
def read_head_turn (s : buffered_stream) :
    (List Char × buffered_stream) ⊕ buffered_stream :=
  let buffer :=
    if s.buffer.length = s.end_ then s.buffer ++ List.replicate s.buffer.length '\x00'
    else s.buffer
  let (data, t) := async_receive s.stream (buffer.length - s.end_)
  let n := data.length
  if n = 0 then Sum.inl ([], { s with stream := t, buffer := buffer })
  else
    let buffer := buffer.take s.end_ ++ data ++ buffer.drop (s.end_ + n)
    let end_ := s.end_ + n
    match first_match sep (buffer.take end_) with
    | none => Sum.inr { stream := t, buffer := buffer, pos := npos, end_ := end_ }
    | some pos =>
      Sum.inl (buffer.take (pos + 4),
        { stream := t, buffer := buffer, pos := pos + 4, end_ := end_ })

/-- The state of the buffer after one turn of the loop of `read_head`,
whether the turn returns or not. -/
def read_head_turn_state (s : buffered_stream) : buffered_stream :=
  match read_head_turn s with
  | Sum.inl r => r.2
  | Sum.inr s1 => s1

/-- The heads that successive calls of `read_head`, each followed by
`consume()`, return on a connection that is kept alive, up to the first
empty result, and the state after the last call.  This is the sequence of
`read_http_request` calls of `make_client` when every request asks for
keep-alive. -/
def read_heads : Nat → buffered_stream → List (List Char) × buffered_stream
  | 0, s => ([], s)
  | fuel + 1, s =>
    let (head, s1) := s.read_head
    if head = [] then ([], s1)
    else
      match s1.consume with
      | none => ([head], s1)
      | some s2 =>
        let (heads, s3) := read_heads fuel s2
        (head :: heads, s3)

/-- The cursor after one turn of the header loop of `read_http_request`:
`find(':')`, `skip_whitespace()`, `search("\r\n")`. -/
def header_turn (p : parser) : parser :=
  ((p.find ':').2.skip_whitespace.search crlf).2

/-- The cursors of the header loop: the state of the parser after each call
of `find`, `skip_whitespace` and `search`, in order. -/
def header_loop_cursors : Nat → parser → List parser
  | 0, _ => []
  | fuel + 1, p =>
    if p.empty then []
    else
      let p1 := (p.find ':').2
      let p2 := p1.skip_whitespace
      let p3 := (p2.search crlf).2
      p1 :: p2 :: p3 :: header_loop_cursors fuel p3

/-- The cursors of the parse of `read_http_request`: the parser as
constructed and after each call made on it, in order. -/
def parse_cursors (head : List Char) : List parser :=
  if head = [] then []
  else
    let p : parser := { mem := head, it := 0, end_ := head.length - 2 }
    let p1 := (p.find ' ').2
    let p2 := (p1.find ' ').2
    let p3 := (p2.search crlf).2
    p :: p1 :: p2 :: p3 :: header_loop_cursors (p3.end_ - p3.it + 1) p3

/-- The number of turns the header loop makes. -/
def header_loop_turns : Nat → parser → Nat
  | 0, _ => 0
  | fuel + 1, p => if p.empty then 0 else header_loop_turns fuel (header_turn p) + 1

/-- The bytes that the receive calls made so far have delivered, in order. -/
def transport.arrived (t : transport) : List Char :=
  (t.received.map Prod.snd).flatten

/-- The cursor `p` is a cursor of the parse of `head` and is within bounds:
it points into `head`, its `end` is the end of `head` minus 2, and
`begin ≤ it ≤ end`, where `begin` is offset `0`. -/
def parser.within (p : parser) (head : List Char) : Prop :=
  p.mem = head ∧ p.end_ = head.length - 2 ∧ 0 ≤ p.it ∧ p.it ≤ p.end_

/-! # Theorems -/

/-! ## Facts about `first_match` -/

theorem first_match_eq_some (v : List Char) :
    ∀ (s : List Char) (k : Nat),
      first_match v s = some k ↔ (v <+: s.drop k ∧ ∀ j < k, ¬ v <+: s.drop j) := by
  intro s
  induction s with
  | nil =>
    intro k
    by_cases hv : v = []
    · subst hv
      simp only [first_match, if_true, List.drop_nil, List.prefix_rfl, true_and, not_true_eq_false]
      constructor
      · intro h j hj
        simp only [Option.some.injEq] at h
        omega
      · intro h
        rcases Nat.eq_zero_or_pos k with h0 | h0
        · rw [h0]
        · exact absurd (h 0 h0) (by simp)
    · simp [first_match, hv]
  | cons x xs ih =>
    intro k
    by_cases hp : v.isPrefixOf (x :: xs) = true
    · have hp2 : v <+: x :: xs := List.isPrefixOf_iff_prefix.mp hp
      simp only [first_match, hp, if_true, Option.some.injEq]
      constructor
      · intro h
        subst h
        exact ⟨by simpa using hp2, fun j hj => absurd hj (Nat.not_lt_zero j)⟩
      · intro h
        rcases Nat.eq_zero_or_pos k with h0 | h0
        · exact h0.symm
        · exact absurd (by simpa using hp2) (h.2 0 h0)
    · have hp2 : ¬ v <+: x :: xs := fun h => hp (List.isPrefixOf_iff_prefix.mpr h)
      simp only [first_match, hp]
      cases k with
      | zero =>
        simp only [List.drop_zero, hp2, false_and, iff_false]
        cases first_match v xs <;> simp
      | succ k =>
        have key : (v <+: (x :: xs).drop (k + 1) ∧ ∀ j < k + 1, ¬ v <+: (x :: xs).drop j) ↔
            (v <+: xs.drop k ∧ ∀ j < k, ¬ v <+: xs.drop j) := by
          simp only [List.drop_succ_cons]
          constructor
          · rintro ⟨h1, h2⟩
            exact ⟨h1, fun j hj => by simpa using h2 (j + 1) (by omega)⟩
          · rintro ⟨h1, h2⟩
            refine ⟨h1, fun j hj => ?_⟩
            cases j with
            | zero => simpa using hp2
            | succ j => simpa using h2 j (by omega)
        rw [key, ← ih k]
        cases first_match v xs <;> simp

theorem first_match_eq_none (v s : List Char) :
    first_match v s = none ↔ ∀ j, ¬ v <+: s.drop j := by
  constructor
  · intro h j hj
    have hex : ∃ j, v <+: s.drop j := ⟨j, hj⟩
    have hmin := (first_match_eq_some v s (Nat.find hex)).mpr
      ⟨Nat.find_spec hex, fun i hi => Nat.find_min hex hi⟩
    rw [h] at hmin
    exact Option.noConfusion hmin
  · intro h
    cases hm : first_match v s with
    | none => rfl
    | some k => exact absurd ((first_match_eq_some v s k).mp hm).1 (h k)

/-- On a range shorter than `npos`, `find` returns `npos` exactly when there
is no occurrence. -/
theorem sv_find_eq_npos (v s : List Char) (hlen : s.length < npos) :
    sv_find s v = npos ↔ first_match v s = none := by
  unfold sv_find
  cases h : first_match v s with
  | none => simp
  | some k =>
    simp only [Option.getD_some, reduceCtorEq, iff_false]
    have hpre := ((first_match_eq_some v s k).mp h)
    intro hk
    have hdrop : s.drop k = [] := List.drop_eq_nil_of_le (by omega)
    rw [hdrop] at hpre
    have hv : v = [] := List.prefix_nil.mp hpre.1
    have h0 : 0 < k := by rw [hk]; decide
    exact hpre.2 0 h0 (by rw [hv]; exact List.nil_prefix)

/-- An occurrence inside a prefix is an occurrence in the whole. -/
theorem prefix_drop_append (v P Q : List Char) (k : Nat) (h : v <+: P.drop k) :
    v <+: (P ++ Q).drop k := by
  rcases Nat.le_total k P.length with hk | hk
  · rw [List.drop_append_of_le_length hk]
    exact h.trans (List.prefix_append _ _)
  · rw [List.drop_eq_nil_of_le hk] at h
    rw [List.prefix_nil.mp h]
    exact List.nil_prefix

/-- An occurrence in the whole that ends inside a prefix is an occurrence in
the prefix. -/
theorem prefix_drop_of_append (v P Q : List Char) (k : Nat)
    (h : v <+: (P ++ Q).drop k) (hk : k + v.length ≤ P.length) : v <+: P.drop k := by
  rw [List.drop_append_of_le_length (by omega)] at h
  exact List.prefix_of_prefix_length_le h (List.prefix_append _ _)
    (by rw [List.length_drop]; omega)

/-- The first occurrence found in a prefix is the first occurrence of the
whole. -/
theorem first_match_prefix (v P Q : List Char) (p k : Nat) (hv : v ≠ [])
    (hp : first_match v P = some p)
    (hk1 : v <+: (P ++ Q).drop k) (hk2 : ∀ j < k, ¬ v <+: (P ++ Q).drop j) :
    k = p ∧ p + v.length ≤ P.length := by
  obtain ⟨hp1, hp2⟩ := (first_match_eq_some v P p).mp hp
  have hlen : p + v.length ≤ P.length := by
    have h1 := hp1.length_le
    rw [List.length_drop] at h1
    have h2 : 0 < v.length := List.length_pos.mpr hv
    omega
  refine ⟨?_, hlen⟩
  rcases Nat.lt_trichotomy k p with h | h | h
  · exact absurd (prefix_drop_of_append v P Q k hk1 (by omega)) (hp2 k h)
  · exact h
  · exact absurd (prefix_drop_append v P Q p hp1) (hk2 p h)


/-! ## Facts about `async_receive` -/

theorem async_receive_length_le (t : transport) (free : Nat) :
    (async_receive t free).1.length ≤ free := by
  unfold async_receive
  split
  · simp
  · split
    · assumption
    · simp only [List.length_take]; omega

theorem async_receive_flatten (t : transport) (free : Nat) :
    (async_receive t free).1 ++ (async_receive t free).2.incoming.flatten
      = t.incoming.flatten := by
  unfold async_receive
  split
  · next h => simp [h]
  · next c cs h =>
    split
    · simp [h]
    · simp only [h, List.flatten_cons]
      rw [← List.append_assoc, List.take_append_drop]

theorem async_receive_pending (t : transport) (free : Nat) :
    (async_receive t free).2.pending + (async_receive t free).1.length = t.pending := by
  unfold async_receive transport.pending
  split
  · next h => simp [h]
  · next c cs h =>
    split
    · simp only [h, List.map_cons, List.sum_cons]; omega
    · simp only [h, List.map_cons, List.sum_cons, List.length_drop, List.length_take]; omega

theorem async_receive_nonempty (t : transport) (free : Nat)
    (h : ∀ c ∈ t.incoming, c ≠ []) : ∀ c ∈ (async_receive t free).2.incoming, c ≠ [] := by
  unfold async_receive
  split
  · next h0 => simp [h0]
  · next c cs h0 =>
    rw [h0] at h
    split
    · intro d hd
      exact h d (List.mem_cons_of_mem _ hd)
    · next hlen =>
      intro d hd
      simp only [List.mem_cons] at hd
      rcases hd with hd | hd
      · rw [hd]
        intro hnil
        have := congrArg List.length hnil
        simp only [List.length_drop, List.length_nil] at this
        omega
      · exact h d (List.mem_cons_of_mem _ hd)

theorem async_receive_eq_nil (t : transport) (free : Nat) (hfree : 0 < free)
    (h : ∀ c ∈ t.incoming, c ≠ []) (h0 : (async_receive t free).1 = []) :
    t.incoming = [] := by
  unfold async_receive at h0
  split at h0
  · assumption
  · next c cs hc =>
    have hcne : c ≠ [] := h c (by simp [hc])
    split at h0
    · exact absurd h0 hcne
    · simp only [List.take_eq_nil_iff] at h0
      rcases h0 with h0 | h0
      · omega
      · exact absurd h0 hcne

/-! ## `read_head` on a stream that contains the terminator -/

/-- The buffer after storing `data` at offset `e`: its first `e + n` bytes. -/
theorem take_store (B data : List Char) (e : Nat) (he : e ≤ B.length) :
    (B.take e ++ data ++ B.drop (e + data.length)).take (e + data.length)
      = B.take e ++ data := by
  rw [List.take_append_of_le_length
    (by simp only [List.length_append, List.length_take]; omega)]
  rw [List.take_of_length_le
    (by simp only [List.length_append, List.length_take]; omega)]

theorem length_store (B data : List Char) (e : Nat) (he : e + data.length ≤ B.length) :
    (B.take e ++ data ++ B.drop (e + data.length)).length = B.length := by
  simp only [List.length_append, List.length_take, List.length_drop]
  omega

/-- The loop of `read_head`, started with `end` received bytes that hold no
terminator yet, returns the received stream up to its first terminator. -/
theorem read_head_loop_finds (k : Nat) :
    ∀ (fuel : Nat) (s : buffered_stream),
      s.stream.pending < fuel →
      s.end_ ≤ s.buffer.length → 0 < s.buffer.length →
      (∀ c ∈ s.stream.incoming, c ≠ []) →
      first_match sep (s.buffer.take s.end_) = none →
      sep <+: (s.buffer.take s.end_ ++ s.stream.incoming.flatten).drop k →
      (∀ j < k, ¬ sep <+: (s.buffer.take s.end_ ++ s.stream.incoming.flatten).drop j) →
      (read_head_loop fuel s).1
          = (s.buffer.take s.end_ ++ s.stream.incoming.flatten).take (k + 4)
        ∧ (read_head_loop fuel s).2.pos = k + 4
        ∧ k + 4 ≤ (s.buffer.take s.end_ ++ s.stream.incoming.flatten).length := by
  intro fuel
  induction fuel with
  | zero => intro s h; omega
  | succ fuel ih =>
    intro s hfuel hle hpos hne hnone hk1 hk2
    -- the buffer after the doubling step
    obtain ⟨B, hB, hBlen, hBtake⟩ : ∃ B : List Char,
        B = (if s.buffer.length = s.end_ then
              s.buffer ++ List.replicate s.buffer.length '\x00' else s.buffer)
        ∧ s.end_ < B.length ∧ B.take s.end_ = s.buffer.take s.end_ := by
      refine ⟨_, rfl, ?_, ?_⟩
      · split
        · simp only [List.length_append, List.length_replicate]; omega
        · omega
      · split
        · rw [List.take_append_of_le_length hle]
        · rfl
    have hrl := async_receive_length_le s.stream (B.length - s.end_)
    have hrf := async_receive_flatten s.stream (B.length - s.end_)
    have hrp := async_receive_pending s.stream (B.length - s.end_)
    have hrn := async_receive_nonempty s.stream (B.length - s.end_) hne
    have hr0 := async_receive_eq_nil s.stream (B.length - s.end_) (by omega) hne
    rw [read_head_loop]
    simp only [← hB]
    generalize async_receive s.stream (B.length - s.end_) = r at hrl hrf hrp hrn hr0
    obtain ⟨data, t⟩ := r
    simp only at hrl hrf hrp hrn hr0 ⊢
    by_cases hn : data.length = 0
    · -- no byte received: the stream is what the buffer holds, without terminator
      have hd : data = [] := List.length_eq_zero.mp hn
      have hinc := hr0 hd
      rw [hinc, List.flatten_nil, List.append_nil] at hk1
      exact absurd hk1 ((first_match_eq_none sep _).mp hnone k)
    · simp only [hn, if_false]
      have htake := take_store B data s.end_ (by omega)
      have hlen := length_store B data s.end_ (by omega)
      have hstream : B.take s.end_ ++ data ++ t.incoming.flatten
          = s.buffer.take s.end_ ++ s.stream.incoming.flatten := by
        rw [List.append_assoc, hrf, hBtake]
      rw [htake]
      cases hm : first_match sep (B.take s.end_ ++ data) with
      | none =>
        simp only
        have := ih { stream := t, buffer := B.take s.end_ ++ data ++ B.drop (s.end_ + data.length),
                     pos := npos, end_ := s.end_ + data.length }
          (by simp only; omega) (by simp only; omega) (by simp only; omega) hrn
          (by simp only; rw [htake]; exact hm)
          (by simp only; rw [htake, hstream]; exact hk1)
          (by simp only; rw [htake, hstream]; exact hk2)
        simp only [htake, hstream] at this
        exact this
      | some p =>
        simp only
        rw [← hstream] at hk1 hk2
        obtain ⟨hkp, hplen⟩ := first_match_prefix sep (B.take s.end_ ++ data) t.incoming.flatten
          p k (by simp [sep]) hm hk1 hk2
        have hsl : sep.length = 4 := rfl
        rw [hsl] at hplen
        subst hkp
        have hke : k + 4 ≤ s.end_ + data.length := by
          simp only [List.length_append, List.length_take] at hplen
          omega
        have h1 : (B.take s.end_ ++ data ++ B.drop (s.end_ + data.length)).take (k + 4)
            = (B.take s.end_ ++ data).take (k + 4) := by
          conv_rhs => rw [← htake]
          rw [List.take_take, Nat.min_eq_left hke]
        have h2 : (B.take s.end_ ++ data ++ t.incoming.flatten).take (k + 4)
            = (B.take s.end_ ++ data).take (k + 4) :=
          List.take_append_of_le_length hplen
        refine ⟨?_, rfl, ?_⟩
        · rw [← hstream, h1, h2]
        · rw [← hstream]
          simp only [List.length_append] at hplen ⊢
          omega


theorem init_end (t : transport) : (buffered_stream.init t).end_ = 0 := rfl

theorem init_pos (t : transport) : (buffered_stream.init t).pos = 0 := rfl

theorem init_stream (t : transport) : (buffered_stream.init t).stream = t := rfl

theorem init_buffer_length (t : transport) : (buffered_stream.init t).buffer.length = 1024 :=
  List.length_replicate _ _

/-- C1: from a freshly created head buffer, for every way in which a byte
stream arrives in non-empty chunks, if the stream contains the terminator
CRLFCRLF with first occurrence at offset `k`, then `read_head` returns
exactly the first `k + 4` bytes of the stream, and `pos` is `k + 4` on
return.  Chunks larger than the free space are delivered in pieces by the
transport, and `k` is not bounded by the initial 1024 bytes. -/
theorem read_head_returns_first_head (t : transport) (k : Nat)
    (hne : ∀ c ∈ t.incoming, c ≠ [])
    (hk : sep <+: t.incoming.flatten.drop k)
    (hmin : ∀ j < k, ¬ sep <+: t.incoming.flatten.drop j) :
    (buffered_stream.init t).read_head.1 = t.incoming.flatten.take (k + 4)
      ∧ (buffered_stream.init t).read_head.1.length = k + 4
      ∧ (buffered_stream.init t).read_head.2.pos = k + 4 := by
  have h := read_head_loop_finds k (t.pending + 1) (buffered_stream.init t)
    (Nat.lt_succ_self _) (Nat.zero_le _)
    (by rw [init_buffer_length]; decide)
    hne (by rw [init_end, List.take_zero]; rfl)
    (by rw [init_end, List.take_zero]; exact hk)
    (by rw [init_end, List.take_zero]; exact hmin)
  rw [init_end, List.take_zero, List.nil_append] at h
  change (buffered_stream.init t).read_head.1 = _ ∧ (buffered_stream.init t).read_head.2.pos = _
    ∧ _ at h
  obtain ⟨h1, h2, h3⟩ := h
  refine ⟨h1, ?_, h2⟩
  have := congrArg List.length h1
  rw [List.length_take, Nat.min_eq_left h3] at this
  exact this

/-- A head of 1104 bytes, longer than the initial buffer, arriving in three
chunks, the last of which carries bytes of the next request. -/
theorem read_head_returns_first_head_witness :
    (buffered_stream.init (transport.of_chunks
        [List.replicate 700 'a', List.replicate 400 'b', "\r\n\r\nGET".toList])).read_head.1
      = [List.replicate 700 'a', List.replicate 400 'b', "\r\n\r\nGET".toList].flatten.take 1104
    ∧ (buffered_stream.init (transport.of_chunks
        [List.replicate 700 'a', List.replicate 400 'b', "\r\n\r\nGET".toList])).read_head.1.length
      = 1104
    ∧ (buffered_stream.init (transport.of_chunks
        [List.replicate 700 'a', List.replicate 400 'b', "\r\n\r\nGET".toList])).read_head.2.pos
      = 1104 := by
  have hflat : [List.replicate 700 'a', List.replicate 400 'b', "\r\n\r\nGET".toList].flatten
      = List.replicate 700 'a' ++ List.replicate 400 'b' ++ "\r\n\r\nGET".toList := by
    simp only [List.flatten_cons, List.flatten_nil, List.append_nil, List.append_assoc]
  have hlen : (List.replicate 700 'a' ++ List.replicate 400 'b').length = 1100 := by
    simp only [List.length_append, List.length_replicate]
  refine read_head_returns_first_head (transport.of_chunks
      [List.replicate 700 'a', List.replicate 400 'b', "\r\n\r\nGET".toList]) 1100 ?_ ?_ ?_
  · intro c hc
    change c ∈ [List.replicate 700 'a', List.replicate 400 'b', "\r\n\r\nGET".toList] at hc
    simp only [List.mem_cons, List.mem_singleton, List.not_mem_nil, or_false] at hc
    rcases hc with rfl | rfl | rfl
    · exact List.ne_nil_of_length_pos (by rw [List.length_replicate]; decide)
    · exact List.ne_nil_of_length_pos (by rw [List.length_replicate]; decide)
    · decide
  · change sep <+: ([List.replicate 700 'a', List.replicate 400 'b',
        "\r\n\r\nGET".toList].flatten).drop 1100
    rw [hflat, List.drop_append_of_le_length (Nat.le_of_eq hlen.symm),
      List.drop_of_length_le (Nat.le_of_eq hlen), List.nil_append]
    decide
  · intro j hj
    change ¬ sep <+: ([List.replicate 700 'a', List.replicate 400 'b',
        "\r\n\r\nGET".toList].flatten).drop j
    rw [hflat, List.drop_append_of_le_length (by rw [hlen]; exact Nat.le_of_lt hj)]
    intro hpre
    have hj2 : j < (List.replicate 700 'a' ++ List.replicate 400 'b').length := by
      rw [hlen]; exact hj
    obtain ⟨x, xs, hx⟩ := List.exists_cons_of_ne_nil
      (List.drop_eq_nil_iff.not.mpr (Nat.not_le.mpr hj2))
    have hmem : x ∈ List.replicate 700 'a' ++ List.replicate 400 'b' :=
      List.mem_of_mem_drop (hx ▸ List.mem_cons_self x xs)
    rw [hx] at hpre
    obtain ⟨r, hr⟩ := hpre
    have hx2 : x = '\r' := by
      have := congrArg List.head? hr
      simpa [sep] using this.symm
    rw [hx2] at hmem
    simp only [List.mem_append, List.mem_replicate] at hmem
    rcases hmem with ⟨_, h⟩ | ⟨_, h⟩ <;> exact absurd h (by decide)


/-! ## The cursor on a split array -/

theorem slice_splits (A R Z : List Char) (k : Nat) (hk : k ≤ R.length) :
    slice (A ++ R ++ Z) A.length (A.length + k) = R.take k := by
  unfold slice
  rw [List.append_assoc, List.take_append, List.drop_append_of_le_length (Nat.le_refl _),
    List.drop_length, List.nil_append, List.take_append_of_le_length hk]

theorem range_of_splits (p : parser) (A R Z : List Char) (h : p.splits A R Z) :
    p.range = R := by
  obtain ⟨h1, h2, h3⟩ := h
  unfold parser.range
  rw [h1, h2, h3, slice_splits A R Z R.length (Nat.le_refl _), List.take_length]

theorem empty_of_splits (p : parser) (A R Z : List Char) (h : p.splits A R Z) :
    p.empty = true ↔ R = [] := by
  obtain ⟨_, h2, h3⟩ := h
  unfold parser.empty
  rw [h2, h3, beq_iff_eq, ← List.length_eq_zero]
  omega

theorem std_find_append (c : Char) (tok R : List Char) (hc : c ∉ tok) :
    std_find c (tok ++ c :: R) = tok.length := by
  induction tok with
  | nil => simp [std_find]
  | cons x xs ih =>
    have hx : x ≠ c := fun h => hc (by simp [h])
    have hxs : c ∉ xs := fun h => hc (List.mem_cons_of_mem _ h)
    simp [std_find, hx, ih hxs]

/-- The call `find(c)` on a range `tok ++ c :: R` returns `tok` and leaves the
range `R`. -/
theorem find_splits (p : parser) (A tok R Z : List Char) (c : Char)
    (h : p.splits A (tok ++ c :: R) Z) (hc : c ∉ tok) :
    (p.find c).1 = tok ∧ (p.find c).2.splits (A ++ tok ++ [c]) R Z := by
  have hr := range_of_splits p _ _ _ h
  obtain ⟨h1, h2, h3⟩ := h
  unfold parser.find
  simp only [hr, std_find_append c tok R hc]
  have hne : ¬ (p.it + tok.length = p.end_) := by
    rw [h2, h3]; simp only [List.length_append, List.length_cons]; omega
  refine ⟨?_, ?_, ?_, ?_⟩
  · rw [h1, h2, slice_splits A _ Z tok.length (by simp)]
    simp
  · simp only [h1]
    simp
  · rw [h2] at hne
    simp only [h2, hne, if_false]
    simp only [List.length_append, List.length_cons, List.length_nil]
  · simp only [h3]
    simp only [List.length_append, List.length_cons, List.length_nil]
    omega

theorem first_match_crlf_append (tok R : List Char) (hc : '\r' ∉ tok) :
    first_match crlf (tok ++ crlf ++ R) = some tok.length := by
  rw [first_match_eq_some]
  constructor
  · rw [List.append_assoc, List.drop_append_of_le_length (Nat.le_refl _), List.drop_length,
      List.nil_append]
    exact List.prefix_append _ _
  · intro j hj hpre
    rw [List.append_assoc, List.drop_append_of_le_length (Nat.le_of_lt hj)] at hpre
    obtain ⟨x, xs, hx⟩ := List.exists_cons_of_ne_nil
      (List.drop_eq_nil_iff.not.mpr (Nat.not_le.mpr hj))
    have hmem : x ∈ tok := List.mem_of_mem_drop (hx ▸ List.mem_cons_self x xs)
    rw [hx] at hpre
    obtain ⟨r, hr⟩ := hpre
    have hx2 : x = '\r' := by
      have := congrArg List.head? hr
      simpa [crlf] using this.symm
    exact hc (hx2 ▸ hmem)

/-- The call `search("\r\n")` on a range `tok ++ "\r\n" ++ R` returns `tok` and
leaves the range `R`. -/
theorem search_splits (p : parser) (A tok R Z : List Char)
    (h : p.splits A (tok ++ crlf ++ R) Z) (hc : '\r' ∉ tok) :
    (p.search crlf).1 = tok ∧ (p.search crlf).2.splits (A ++ tok ++ crlf) R Z := by
  have hr := range_of_splits p _ _ _ h
  obtain ⟨h1, h2, h3⟩ := h
  unfold parser.search std_search
  simp only [hr, first_match_crlf_append tok R hc, Option.getD_some]
  have hl : crlf.length = 2 := rfl
  have hne : p.it + tok.length ≠ p.end_ := by
    rw [h2, h3]; simp only [List.length_append, hl]; omega
  refine ⟨?_, ?_, ?_, ?_⟩
  · rw [h1, h2, slice_splits A _ Z tok.length (by simp)]
    simp
  · simp only [h1]
    simp
  · rw [h2] at hne
    simp only [h2, hne, ne_eq, not_false_eq_true, if_true]
    simp only [List.length_append]
  · simp only [h3]
    simp only [List.length_append]
    omega

theorem skip_whitespace_loop_run (e : Nat) (ws : List Char) (x : Char) (rest : List Char) :
    ∀ (it : Nat), it + ws.length ≤ e → (∀ c ∈ ws, c = ' ' ∨ c = '\t') →
      x ≠ ' ' → x ≠ '\t' →
      skip_whitespace_loop e (ws ++ x :: rest) it = it + ws.length := by
  induction ws with
  | nil =>
    intro it _ _ h1 h2
    simp [skip_whitespace_loop, h1, h2]
  | cons w ws ih =>
    intro it hle hws h1 h2
    have hw := hws w (by simp)
    have hit : it ≠ e := by simp only [List.length_cons] at hle; omega
    have hcond : (it ≠ e ∧ w = ' ') ∨ w = '\t' := by
      rcases hw with hw | hw
      · exact Or.inl ⟨hit, hw⟩
      · exact Or.inr hw
    rw [List.cons_append, skip_whitespace_loop, if_pos hcond]
    rw [ih (it + 1) (by simp only [List.length_cons] at hle; omega)
      (fun c hc => hws c (List.mem_cons_of_mem _ hc)) h1 h2]
    simp only [List.length_cons]
    omega

/-- The call `skip_whitespace()` on a range that starts with the run `ws` of
spaces and tabs, followed by another character, skips exactly `ws`. -/
theorem skip_whitespace_splits (p : parser) (A ws R Z : List Char) (x : Char)
    (h : p.splits A (ws ++ x :: R) Z) (hws : ∀ c ∈ ws, c = ' ' ∨ c = '\t')
    (h1 : x ≠ ' ') (h2 : x ≠ '\t') :
    p.skip_whitespace.splits (A ++ ws) (x :: R) Z := by
  obtain ⟨hm, hi, he⟩ := h
  unfold parser.skip_whitespace
  have hdrop : p.mem.drop p.it = ws ++ x :: (R ++ Z) := by
    rw [hm, hi, List.append_assoc, List.drop_append_of_le_length (Nat.le_refl _),
      List.drop_length, List.nil_append, List.append_assoc, List.cons_append]
  rw [hdrop, skip_whitespace_loop_run p.end_ ws x (R ++ Z) p.it
    (by rw [hi, he]; simp only [List.length_append]; omega) hws h1 h2]
  refine ⟨?_, ?_, ?_⟩
  · simp only [hm]
    simp
  · simp only [hi, List.length_append]
  · simp only [he, List.length_append, List.length_cons]
    omega


/-! ## Parsing a well-formed head -/

theorem value_line_head (value rest : List Char)
    (h1 : value.head? ≠ some ' ') (h2 : value.head? ≠ some '\t') :
    ∃ x R, value ++ crlf ++ rest = x :: R ∧ x ≠ ' ' ∧ x ≠ '\t' := by
  cases value with
  | nil => exact ⟨'\r', '\n' :: rest, rfl, by decide, by decide⟩
  | cons x xs =>
    refine ⟨x, xs ++ crlf ++ rest, by simp, ?_, ?_⟩
    · intro h; exact h1 (by simp [h])
    · intro h; exact h2 (by simp [h])

/-- The header loop on a range made of well-formed header lines assigns the
pairs in order. -/
theorem header_loop_lines (Z : List Char) :
    ∀ (hs : List header_line) (fuel : Nat) (p : parser) (A : List Char) (acc : header_map),
      (∀ h ∈ hs, h.well_formed) →
      p.splits A (hs.map header_line.text).flatten Z →
      (hs.map header_line.text).flatten.length < fuel →
      header_loop fuel p acc = hs.foldl (fun m h => m.assign h.key h.value) acc := by
  intro hs
  induction hs with
  | nil =>
    intro fuel p A acc _ hsp hfuel
    have hemp : p.empty = true := (empty_of_splits p A _ Z hsp).mpr rfl
    cases fuel with
    | zero => rfl
    | succ fuel => simp [header_loop, hemp]
  | cons h hs ih =>
    intro fuel p A acc hwf hsp hfuel
    obtain ⟨hkey, hws, hval, hv1, hv2⟩ := hwf h (List.mem_cons_self _ _)
    have hshape : ((h :: hs).map header_line.text).flatten
        = h.key ++ ':' :: (h.ws ++ (h.value ++ crlf ++ (hs.map header_line.text).flatten)) := by
      simp [header_line.text]
    have hlen : (hs.map header_line.text).flatten.length + 1
        ≤ ((h :: hs).map header_line.text).flatten.length := by
      rw [hshape]
      simp only [List.length_append, List.length_cons]
      omega
    rw [hshape] at hsp
    have hemp : p.empty = false := by
      rw [Bool.eq_false_iff]
      intro hcon
      have := (empty_of_splits p A _ Z hsp).mp hcon
      simp at this
    cases fuel with
    | zero => omega
    | succ fuel =>
      rw [header_loop]
      simp only [hemp, Bool.false_eq_true, if_false]
      obtain ⟨hf1, hf2⟩ := find_splits p A h.key _ Z ':' hsp (fun hm => (hkey _ hm).1 rfl)
      obtain ⟨x, R, hxR, hx1, hx2⟩ :=
        value_line_head h.value (hs.map header_line.text).flatten hv1 hv2
      rw [hxR] at hf2
      have hs2 := skip_whitespace_splits _ _ h.ws R Z x hf2 hws hx1 hx2
      rw [← hxR] at hs2
      obtain ⟨hs3, hs4⟩ := search_splits _ _ h.value _ Z hs2 (fun hm => (hval _ hm).1 rfl)
      rw [hf1, hs3]
      rw [ih fuel _ _ _ (fun g hg => hwf g (List.mem_cons_of_mem _ hg)) hs4 (by omega)]
      rfl

theorem lookup_assign (m : header_map) (k v k2 : List Char) :
    (m.assign k v).lookup k2 = if k = k2 then some v else m.lookup k2 := by
  induction m with
  | nil => simp [header_map.assign, header_map.lookup]
  | cons e rest ih =>
    obtain ⟨a, b⟩ := e
    by_cases hak : a = k
    · subst hak
      simp only [header_map.assign, header_map.lookup, if_true]
      split <;> rfl
    · by_cases hak2 : a = k2
      · subst hak2
        have : ¬ k = a := fun h => hak h.symm
        simp [header_map.assign, header_map.lookup, hak, this]
      · simp [header_map.assign, header_map.lookup, hak, hak2, ih]

theorem lookup_foldl_assign (k : List Char) :
    ∀ (hs : List header_line) (acc : header_map),
      (hs.foldl (fun m h => m.assign h.key h.value) acc).lookup k
        = (last_value hs k).or (acc.lookup k) := by
  intro hs
  induction hs with
  | nil => intro acc; simp [last_value]
  | cons h hs ih =>
    intro acc
    rw [List.foldl_cons, ih, lookup_assign]
    unfold last_value
    rw [List.reverse_cons, List.find?_append]
    cases hfind : List.find? (fun h => decide (h.key = k)) hs.reverse with
    | some g => simp
    | none =>
      by_cases hk : h.key = k
      · simp [hk]
      · simp [hk]


/-- C2: parsing undoes formatting.  For a method and a URI without space, CR
or LF, a version without CR or LF, and well-formed header lines, the parse
of `m SP u SP v CRLF`, the lines `key ':' ws value CRLF` and a final CRLF is
the request with method `m`, URI `u`, version `v` and the header map
obtained by inserting the pairs in order; a lookup in that map gives the
value of the last line with that key. -/
theorem parse_head_format_head (m u v : List Char) (hs : List header_line)
    (hm : ∀ c ∈ m, c ≠ ' ' ∧ c ≠ '\r' ∧ c ≠ '\n')
    (hu : ∀ c ∈ u, c ≠ ' ' ∧ c ≠ '\r' ∧ c ≠ '\n')
    (hv : ∀ c ∈ v, c ≠ '\r' ∧ c ≠ '\n')
    (hwf : ∀ h ∈ hs, h.well_formed) :
    parse_head (format_head m u v hs)
        = { method := m, uri := u, version := v, headers := insert_all hs, body := [] }
      ∧ ∀ k, (parse_head (format_head m u v hs)).headers.lookup k = last_value hs k := by
  have hshape : format_head m u v hs
      = [] ++ (m ++ ' ' :: (u ++ ' ' :: (v ++ crlf ++ (hs.map header_line.text).flatten)))
          ++ crlf := by
    simp [format_head]
  have hne : format_head m u v hs ≠ [] := by
    rw [hshape]; simp [crlf]
  have hsp : parser.splits ⟨format_head m u v hs, 0, (format_head m u v hs).length - 2⟩
      [] (m ++ ' ' :: (u ++ ' ' :: (v ++ crlf ++ (hs.map header_line.text).flatten))) crlf := by
    refine ⟨hshape, rfl, ?_⟩
    simp only [hshape, List.length_append, List.length_nil, crlf, List.length_cons]
    omega
  obtain ⟨hf1, hf2⟩ := find_splits _ _ m _ _ ' ' hsp (fun h => (hm _ h).1 rfl)
  obtain ⟨hg1, hg2⟩ := find_splits _ _ u _ _ ' ' hf2 (fun h => (hu _ h).1 rfl)
  obtain ⟨hs1, hs2⟩ := search_splits _ _ v _ _ hg2 (fun h => (hv _ h).1 rfl)
  have hfuel : (hs.map header_line.text).flatten.length
      < (parser.search (parser.find (parser.find
          ⟨format_head m u v hs, 0, (format_head m u v hs).length - 2⟩ ' ').2 ' ').2 crlf).2.end_
        - (parser.search (parser.find (parser.find
          ⟨format_head m u v hs, 0, (format_head m u v hs).length - 2⟩ ' ').2 ' ').2 crlf).2.it + 1 := by
    rw [hs2.2.1, hs2.2.2]
    omega
  have hloop := header_loop_lines crlf hs _ _ _ [] hwf hs2 hfuel
  have hparse : parse_head (format_head m u v hs)
      = { method := m, uri := u, version := v, headers := insert_all hs, body := [] } := by
    unfold parse_head
    simp only [hne, if_false]
    rw [hloop, hf1, hg1, hs1]
    rfl
  refine ⟨hparse, fun k => ?_⟩
  rw [hparse]
  simp only [insert_all]
  rw [lookup_foldl_assign]
  simp [header_map.lookup]

/-- The head `GET /a b HTTP/1.1` with a repeated `Connection` key, a key
holding a space, tabs after a colon, and an empty value. -/
theorem parse_head_format_head_witness :
    parse_head (format_head "GET".toList "/a".toList "b HTTP/1.1".toList
        [⟨"Connection".toList, " ".toList, "close".toList⟩,
         ⟨"X Y".toList, "\t \t".toList, "v:1 2".toList⟩,
         ⟨"Empty".toList, "  ".toList, [] ⟩,
         ⟨"Connection".toList, [], "Keep-Alive".toList⟩])
      = { method := "GET".toList, uri := "/a".toList, version := "b HTTP/1.1".toList,
          headers := insert_all
            [⟨"Connection".toList, " ".toList, "close".toList⟩,
             ⟨"X Y".toList, "\t \t".toList, "v:1 2".toList⟩,
             ⟨"Empty".toList, "  ".toList, [] ⟩,
             ⟨"Connection".toList, [], "Keep-Alive".toList⟩],
          body := [] }
    ∧ (parse_head (format_head "GET".toList "/a".toList "b HTTP/1.1".toList
        [⟨"Connection".toList, " ".toList, "close".toList⟩,
         ⟨"X Y".toList, "\t \t".toList, "v:1 2".toList⟩,
         ⟨"Empty".toList, "  ".toList, [] ⟩,
         ⟨"Connection".toList, [], "Keep-Alive".toList⟩])).headers.lookup "Connection".toList
      = some "Keep-Alive".toList := by
  have h := parse_head_format_head "GET".toList "/a".toList "b HTTP/1.1".toList
    [⟨"Connection".toList, " ".toList, "close".toList⟩,
     ⟨"X Y".toList, "\t \t".toList, "v:1 2".toList⟩,
     ⟨"Empty".toList, "  ".toList, [] ⟩,
     ⟨"Connection".toList, [], "Keep-Alive".toList⟩]
    (by decide) (by decide) (by decide) (by decide)
  refine ⟨h.1, ?_⟩
  rw [h.2]
  decide


/-! ## The keep-alive decision -/

set_option maxRecDepth 100000

theorem keep_alive_of_iff (r : request) :
    keep_alive_of r = true
      ↔ r.headers.lookup "Connection".toList = some "Keep-Alive".toList := by
  unfold keep_alive_of header_map.subscript
  cases h : r.headers.lookup "Connection".toList with
  | none => simp
  | some v => simp

/-- The turn of `make_client` on a request with a non-empty method. -/
theorem client_turn_of_request (files : List Char → List Char) (s s1 : buffered_stream)
    (r : request) (hread : read_http_request s = some (r, s1)) (hm : r.method ≠ []) :
    client_turn files s = some ((respond files r s1).1, keep_alive_of r) := by
  unfold client_turn
  rw [hread]
  simp only [hm, if_false]
  rfl

/-- C3: for a request with a non-empty method the handler goes round its
loop again, and so reads another head, exactly when the header map holds
`"Keep-Alive"` for the key `"Connection"`; otherwise the handler ends after
this turn.  The decision is `true` for the head
`GET / HTTP/1.1 CRLF Connection: Keep-Alive CRLF CRLF`, and `false` when the
header is absent, when the key or the value differs in case, when the
value has trailing whitespace, and when a later `Connection` line carries
another value. -/
theorem keep_alive_decision (files : List Char → List Char) (s : buffered_stream)
    (r : request) (hread : (read_http_request s).map Prod.fst = some r)
    (hm : r.method ≠ []) :
    (∃ s2 : buffered_stream,
        (client_turn files s = some (s2, true)
          ↔ r.headers.lookup "Connection".toList = some "Keep-Alive".toList)
        ∧ (client_turn files s = some (s2, false)
          ↔ r.headers.lookup "Connection".toList ≠ some "Keep-Alive".toList)
        ∧ ∀ fuel, make_client_loop files (fuel + 1) s
            = if r.headers.lookup "Connection".toList = some "Keep-Alive".toList
              then make_client_loop files fuel s2 else some s2)
      ∧ keep_alive_of
          (parse_head "GET / HTTP/1.1\r\nConnection: Keep-Alive\r\n\r\n".toList) = true
      ∧ keep_alive_of (parse_head "GET / HTTP/1.1\r\n\r\n".toList) = false
      ∧ keep_alive_of
          (parse_head "GET / HTTP/1.1\r\nconnection: Keep-Alive\r\n\r\n".toList) = false
      ∧ keep_alive_of
          (parse_head "GET / HTTP/1.1\r\nConnection: keep-alive\r\n\r\n".toList) = false
      ∧ keep_alive_of
          (parse_head "GET / HTTP/1.1\r\nConnection: Keep-Alive \r\n\r\n".toList) = false
      ∧ keep_alive_of
          (parse_head
            "GET / HTTP/1.1\r\nConnection: Keep-Alive\r\nConnection: close\r\n\r\n".toList)
          = false := by
  refine ⟨?_, by decide, by decide, by decide, by decide, by decide, by decide⟩
  cases hr : read_http_request s with
  | none => rw [hr] at hread; exact Option.noConfusion hread
  | some rs =>
    obtain ⟨r1, s1⟩ := rs
    rw [hr] at hread
    simp only [Option.map_some', Option.some.injEq] at hread
    subst hread
    have hturn := client_turn_of_request files s s1 r1 hr hm
    have hiff := keep_alive_of_iff r1
    refine ⟨(respond files r1 s1).1, ?_, ?_, ?_⟩
    · rw [hturn, ← hiff]
      simp
    · rw [hturn, ne_eq, ← hiff]
      simp
    · intro fuel
      rw [make_client_loop, hturn]
      simp only [← hiff]

/-- The head `GET / HTTP/1.1 CRLF Connection: Keep-Alive CRLF CRLF`, arriving
in one chunk on a fresh connection, keeps the connection open. -/
theorem keep_alive_decision_witness :
    ∃ s2 : buffered_stream,
      client_turn (fun _ => "<html/>".toList)
        (buffered_stream.init (transport.of_chunks
          ["GET / HTTP/1.1\r\nConnection: Keep-Alive\r\n\r\n".toList]))
        = some (s2, true) := by
  obtain ⟨⟨s2, h1, _, _⟩, _⟩ := keep_alive_decision (fun _ => "<html/>".toList)
    (buffered_stream.init (transport.of_chunks
      ["GET / HTTP/1.1\r\nConnection: Keep-Alive\r\n\r\n".toList]))
    (parse_head "GET / HTTP/1.1\r\nConnection: Keep-Alive\r\n\r\n".toList)
    (by decide) (by decide)
  exact ⟨s2, h1.mpr (by decide)⟩


/-! ## The send loops of `write_response` -/

theorem taken_append (a b : List (List Char × Nat)) : taken (a ++ b) = taken a ++ taken b := by
  simp [taken]

theorem taken_cons (c : List Char × Nat) (rest : List (List Char × Nat)) :
    taken (c :: rest) = c.1.take c.2 ++ taken rest := by
  simp [taken]

/-- A run of one send loop, for any behaviour of the transport: the calls it
makes, each at the first offset not yet taken, and what they transmit.  Only
the last call can report zero progress, and the data is transmitted in full
exactly when no call that offers bytes reports zero progress. -/
theorem send_loop_calls (data : List Char) :
    ∀ (fuel p : Nat) (t : transport), p ≤ data.length → data.length - p < fuel →
      ∃ calls : List (List Char × Nat), calls ≠ []
        ∧ (send_loop fuel data p t).sent = t.sent ++ calls
        ∧ (send_loop fuel data p t).accept = t.accept
        ∧ (send_loop fuel data p t).incoming = t.incoming
        ∧ (send_loop fuel data p t).received = t.received
        ∧ sends_from data p calls
        ∧ (∀ c ∈ calls.dropLast, 0 < c.2)
        ∧ taken calls <+: data.drop p
        ∧ (taken calls = data.drop p ↔ ∀ c ∈ calls, c.1 ≠ [] → 0 < c.2)
        ∧ ((∀ i k, 0 < k → 0 < t.accept i k) → ∀ c ∈ calls, c.1 ≠ [] → 0 < c.2) := by
  intro fuel
  induction fuel with
  | zero => intro p t _ h; omega
  | succ fuel ih =>
    intro p t hp hfuel
    rw [send_loop]
    simp only [async_send]
    generalize hn : min (t.accept t.sent.length (data.drop p).length) (data.drop p).length = n
    have hnle : n ≤ (data.drop p).length := by rw [← hn]; exact Nat.min_le_right _ _
    have hdl : (data.drop p).length = data.length - p := List.length_drop _ _
    by_cases hcont : 0 < n ∧ p + n ≠ data.length
    · -- the loop goes round again
      simp only [hcont, ne_eq, not_false_eq_true, and_self, if_true]
      obtain ⟨calls, hne, hsent, hacc, hinc, hrec, hfrom, hlast, hpre, hfull, hprog⟩ :=
        ih (p + n) { t with sent := t.sent ++ [(data.drop p, n)] } (by omega) (by omega)
      have hdrop : data.drop (p + n) = (data.drop p).drop n := by
        rw [List.drop_drop]
      refine ⟨(data.drop p, n) :: calls, List.cons_ne_nil _ _, ?_, hacc, hinc, hrec,
        ⟨rfl, hnle, hfrom⟩, ?_, ?_, ?_, ?_⟩
      · rw [hsent]; simp
      · intro c hc
        rw [List.dropLast_cons_of_ne_nil hne, List.mem_cons] at hc
        rcases hc with rfl | hc
        · exact hcont.1
        · exact hlast c hc
      · rw [taken_cons]
        simp only
        rw [hdrop] at hpre
        have := (List.prefix_append_right_inj ((data.drop p).take n)).mpr hpre
        rwa [List.take_append_drop] at this
      · rw [taken_cons]
        simp only
        rw [hdrop] at hfull
        constructor
        · intro h c hc
          have h2 : taken calls = (data.drop p).drop n := by
            have h3 : (data.drop p).take n ++ taken calls
                = (data.drop p).take n ++ (data.drop p).drop n := by
              rw [h, List.take_append_drop]
            exact List.append_cancel_left h3
          rw [List.mem_cons] at hc
          rcases hc with rfl | hc
          · intro _; exact hcont.1
          · exact hfull.mp h2 c hc
        · intro h
          rw [hfull.mpr (fun c hc => h c (List.mem_cons_of_mem _ hc)), List.take_append_drop]
      · intro hall c hc
        rw [List.mem_cons] at hc
        rcases hc with rfl | hc
        · intro _; exact hcont.1
        · exact hprog hall c hc
    · -- the loop ends with this call
      simp only [hcont, if_false]
      refine ⟨[(data.drop p, n)], List.cons_ne_nil _ _, rfl, trivial, trivial, trivial,
        ⟨rfl, hnle, trivial⟩, ?_, ?_, ?_, ?_⟩
      · intro c hc; simp at hc
      · rw [taken_cons]
        simp only [taken, List.map_nil, List.flatten_nil, List.append_nil]
        exact List.take_prefix _ _
      · rw [taken_cons]
        simp only [taken, List.map_nil, List.flatten_nil, List.append_nil,
          List.mem_singleton, forall_eq]
        constructor
        · intro h hne0
          rcases Nat.eq_zero_or_pos n with h0 | h0
          · rw [h0, List.take_zero] at h
            exact absurd h.symm hne0
          · exact h0
        · intro h
          by_cases hnil : data.drop p = []
          · rw [hnil]; simp
          · have hpos := h hnil
            have : p + n = data.length := by
              by_contra hx; exact hcont ⟨hpos, hx⟩
            exact List.take_of_length_le (by omega)
      · intro hall c hc hcne
        rw [List.mem_singleton] at hc
        subst hc
        simp only at hcne ⊢
        have hk : 0 < (data.drop p).length := List.length_pos.mpr hcne
        rw [← hn]
        exact Nat.lt_min.mpr ⟨hall _ _ hk, hk⟩

/-- The result of a send loop does not depend on the fuel, once there is
enough of it: the loop ends by its own condition. -/
theorem send_loop_fuel (data : List Char) :
    ∀ (fuel1 fuel2 p : Nat) (t : transport), p ≤ data.length →
      data.length - p < fuel1 → data.length - p < fuel2 →
      send_loop fuel1 data p t = send_loop fuel2 data p t := by
  intro fuel1
  induction fuel1 with
  | zero => intro fuel2 p t _ h; omega
  | succ fuel1 ih =>
    intro fuel2 p t hp h1 h2
    cases fuel2 with
    | zero => omega
    | succ fuel2 =>
      rw [send_loop, send_loop]
      simp only [async_send]
      have hnle : min (t.accept t.sent.length (data.drop p).length) (data.drop p).length
          ≤ (data.drop p).length := Nat.min_le_right _ _
      rw [List.length_drop] at hnle
      split
      · next hc =>
        rw [List.length_drop] at hc
        exact ih fuel2 _ _ (by rw [List.length_drop]; omega)
          (by rw [List.length_drop]; omega) (by rw [List.length_drop]; omega)
      · rfl


theorem output_of_sent (t t2 : transport) (calls : List (List Char × Nat))
    (h : t2.sent = t.sent ++ calls) : t2.output = t.output ++ taken calls := by
  unfold transport.output
  rw [h, taken_append]

/-- The two send loops of `write_response`, for any behaviour of the
transport: the calls of the header loop and the calls of the body loop. -/
theorem write_response_calls (s : buffered_stream) (message response : List Char) :
    ∃ hcalls bcalls : List (List Char × Nat),
      (s.write_response message response).stream.sent = s.stream.sent ++ hcalls ++ bcalls
      ∧ ((s.write_response message response).stream.accept = s.stream.accept
        ∧ (s.write_response message response).stream.received = s.stream.received)
      ∧ sends_from (response_head message response) 0 hcalls
      ∧ sends_from response 0 bcalls
      ∧ (∀ c ∈ hcalls.dropLast, 0 < c.2) ∧ (∀ c ∈ bcalls.dropLast, 0 < c.2)
      ∧ taken hcalls <+: response_head message response ∧ taken bcalls <+: response
      ∧ (taken hcalls = response_head message response ↔ ∀ c ∈ hcalls, c.1 ≠ [] → 0 < c.2)
      ∧ (taken bcalls = response ↔ ∀ c ∈ bcalls, c.1 ≠ [] → 0 < c.2)
      ∧ ((∀ i k, 0 < k → 0 < s.stream.accept i k) →
          ∀ c ∈ hcalls ++ bcalls, c.1 ≠ [] → 0 < c.2) := by
  obtain ⟨hcalls, _, h1, h2, _, hrc, h3, h4, h5, h6, h7⟩ :=
    send_loop_calls (response_head message response)
      ((response_head message response).length + 1) 0 s.stream (Nat.zero_le _) (by omega)
  obtain ⟨bcalls, _, b1, b2, _, brc, b3, b4, b5, b6, b7⟩ :=
    send_loop_calls response (response.length + 1) 0
      (send_loop ((response_head message response).length + 1)
        (response_head message response) 0 s.stream) (Nat.zero_le _) (by omega)
  rw [List.drop_zero] at h5 h6 b5 b6
  refine ⟨hcalls, bcalls, ?_, ?_, h3, b3, h4, b4, h5, b5, h6, b6, ?_⟩
  · unfold buffered_stream.write_response
    simp only
    rw [b1, h1]
  · unfold buffered_stream.write_response
    simp only
    rw [b2, h2, brc, hrc]
    exact ⟨rfl, rfl⟩
  · intro hall c hc
    rw [List.mem_append] at hc
    rcases hc with hc | hc
    · exact h7 hall c hc
    · exact b7 (by rw [h2]; exact hall) c hc

/-- When every send that is offered bytes takes at least one, the bytes
that `write_response` puts on the wire are the header block and the body. -/
theorem write_response_output (s : buffered_stream) (message response : List Char)
    (hall : ∀ i k, 0 < k → 0 < s.stream.accept i k) :
    (s.write_response message response).stream.output
      = s.stream.output ++ response_head message response ++ response := by
  obtain ⟨hcalls, bcalls, h1, _, _, _, _, _, _, _, h6, b6, h7⟩ :=
    write_response_calls s message response
  have hh := h6.mpr (fun c hc => h7 hall c (List.mem_append_left _ hc))
  have hb := b6.mpr (fun c hc => h7 hall c (List.mem_append_right _ hc))
  rw [List.append_assoc] at h1
  rw [output_of_sent _ _ _ h1, taken_append, hh, hb, List.append_assoc]

/-! ## What `read_http_request` leaves untouched -/

theorem async_receive_sent (t : transport) (free : Nat) :
    (async_receive t free).2.sent = t.sent ∧ (async_receive t free).2.accept = t.accept := by
  unfold async_receive
  split
  · exact ⟨rfl, rfl⟩
  · split <;> exact ⟨rfl, rfl⟩

theorem read_head_loop_sent :
    ∀ (fuel : Nat) (s : buffered_stream),
      (read_head_loop fuel s).2.stream.sent = s.stream.sent
        ∧ (read_head_loop fuel s).2.stream.accept = s.stream.accept := by
  intro fuel
  induction fuel with
  | zero => intro s; exact ⟨rfl, rfl⟩
  | succ fuel ih =>
    intro s
    rw [read_head_loop]
    simp only
    generalize hB : (if s.buffer.length = s.end_ then
        s.buffer ++ List.replicate s.buffer.length '\x00' else s.buffer) = B
    have hr := async_receive_sent s.stream (B.length - s.end_)
    generalize async_receive s.stream (B.length - s.end_) = r at hr
    obtain ⟨data, t⟩ := r
    simp only at hr ⊢
    split
    · exact hr
    · split
      · next hm =>
        have := ih { stream := t, buffer := B.take s.end_ ++ data ++ B.drop (s.end_ + data.length),
                     pos := npos, end_ := s.end_ + data.length }
        simp only at this
        exact ⟨this.1.trans hr.1, this.2.trans hr.2⟩
      · exact hr

theorem read_http_request_sent (s s1 : buffered_stream) (r : request)
    (h : read_http_request s = some (r, s1)) :
    s1.stream.sent = s.stream.sent ∧ s1.stream.accept = s.stream.accept := by
  unfold read_http_request at h
  have hl := read_head_loop_sent (s.stream.pending + 1) s
  unfold buffered_stream.read_head at h
  generalize read_head_loop (s.stream.pending + 1) s = res at h hl
  obtain ⟨head, s0⟩ := res
  simp only at h hl
  unfold buffered_stream.consume at h
  split at h
  · exact Option.noConfusion h
  · next s2 hs2 =>
    split at hs2
    · simp only [Option.some.injEq] at hs2 h
      obtain ⟨_, h2⟩ := Prod.mk.inj h
      subst h2
      subst hs2
      exact hl
    · exact Option.noConfusion hs2


/-! ## The responses of a turn -/

theorem read_request_cases (s : buffered_stream) (r : request)
    (hread : (read_http_request s).map Prod.fst = some r) :
    ∃ s1, read_http_request s = some (r, s1) := by
  cases hr : read_http_request s with
  | none => rw [hr] at hread; exact Option.noConfusion hread
  | some rs =>
    obtain ⟨r1, s1⟩ := rs
    rw [hr] at hread
    simp only [Option.map_some', Option.some.injEq] at hread
    exact ⟨s1, by rw [hread]⟩

/-- C4: for a request with method `GET` whose URI is neither `/` nor
`/fav.png`, when every send takes all the bytes it is offered, the bytes
written in this turn are exactly
`HTTP/1.1 404 NOT FOUND CRLF Content-Length: 9 CRLF CRLF not found`.  The
URIs `/?x=1` and `/index.html` are not in the resource table. -/
theorem get_unregistered_writes_404 (files : List Char → List Char) (s : buffered_stream)
    (r : request) (hread : (read_http_request s).map Prod.fst = some r)
    (hget : r.method = "GET".toList)
    (h1 : r.uri ≠ "/".toList) (h2 : r.uri ≠ "/fav.png".toList)
    (hacc : ∀ i k, s.stream.accept i k = k) :
    (∃ s2 : buffered_stream,
        client_turn files s = some (s2, keep_alive_of r)
        ∧ s2.stream.output = s.stream.output
            ++ "HTTP/1.1 404 NOT FOUND\r\nContent-Length: 9\r\n\r\nnot found".toList)
      ∧ res.lookup "/?x=1".toList = none ∧ res.lookup "/index.html".toList = none := by
  refine ⟨?_, by decide, by decide⟩
  obtain ⟨s1, hr⟩ := read_request_cases s r hread
  obtain ⟨hsent, haccept⟩ := read_http_request_sent s s1 r hr
  have hm : r.method ≠ [] := by rw [hget]; decide
  have hlook : res.lookup r.uri = none := by
    simp only [res, header_map.lookup, Ne.symm h1, Ne.symm h2, if_false]
  refine ⟨_, client_turn_of_request files s s1 r hr hm, ?_⟩
  unfold respond
  simp only [hget, if_true, hlook]
  rw [write_response_output s1 _ _ (by intro i k hk; rw [haccept, hacc]; exact hk)]
  unfold transport.output
  rw [hsent, List.append_assoc]
  rfl

/-- The input `GET /missing HTTP/1.1 CRLF CRLF` on a fresh connection: the
handler writes the 404 response and ends. -/
theorem get_unregistered_writes_404_witness :
    ∃ s2 : buffered_stream,
      make_client (fun _ => []) (transport.of_chunks ["GET /missing HTTP/1.1\r\n\r\n".toList])
        = some s2
      ∧ s2.stream.output
        = "HTTP/1.1 404 NOT FOUND\r\nContent-Length: 9\r\n\r\nnot found".toList := by
  obtain ⟨⟨s2, hturn, hout⟩, _⟩ := get_unregistered_writes_404 (fun _ => [])
    (buffered_stream.init (transport.of_chunks ["GET /missing HTTP/1.1\r\n\r\n".toList]))
    (parse_head "GET /missing HTTP/1.1\r\n\r\n".toList)
    (by decide) (by decide) (by decide) (by decide) (fun _ _ => rfl)
  refine ⟨s2, ?_, hout⟩
  unfold make_client
  rw [make_client_loop, hturn]
  rfl

/-- C5: for a request with method `GET` whose URI is a key of the resource
table, with the content `B` of the backing resource, when every send that is
offered bytes takes at least one, the bytes written in this turn are
`HTTP/1.1 200 OK CRLF Content-Length: `, the decimal length of `B`, two
CRLF, and then `B`.  The keys of the table are `/` and `/fav.png`. -/
theorem get_registered_writes_200 (files : List Char → List Char) (s : buffered_stream)
    (r : request) (path B : List Char)
    (hread : (read_http_request s).map Prod.fst = some r)
    (hget : r.method = "GET".toList)
    (hpath : res.lookup r.uri = some path) (hB : files path = B)
    (hprog : ∀ i k, 0 < k → 0 < s.stream.accept i k) :
    (∃ s2 : buffered_stream,
        client_turn files s = some (s2, keep_alive_of r)
        ∧ s2.stream.output = s.stream.output
            ++ ("HTTP/1.1 200 OK\r\nContent-Length: ".toList ++ (Nat.repr B.length).toList
              ++ "\r\n\r\n".toList ++ B))
      ∧ (r.uri = "/".toList ∨ r.uri = "/fav.png".toList)
      ∧ res.lookup "/".toList = some "data/hello.html".toList
      ∧ res.lookup "/fav.png".toList = some "data/fav.png".toList := by
  refine ⟨?_, ?_, by decide, by decide⟩
  · obtain ⟨s1, hr⟩ := read_request_cases s r hread
    obtain ⟨hsent, haccept⟩ := read_http_request_sent s s1 r hr
    have hm : r.method ≠ [] := by rw [hget]; decide
    refine ⟨_, client_turn_of_request files s s1 r hr hm, ?_⟩
    unfold respond
    simp only [hget, if_true, hpath, hB]
    rw [write_response_output s1 _ _ (by intro i k hk; rw [haccept]; exact hprog i k hk)]
    unfold transport.output
    rw [hsent, List.append_assoc]
    rfl
  · by_contra hcon
    rw [not_or] at hcon
    have hlook : res.lookup r.uri = none := by
      simp only [res, header_map.lookup, Ne.symm hcon.1, Ne.symm hcon.2, if_false]
    rw [hlook] at hpath
    exact Option.noConfusion hpath

/-- The input `GET /fav.png HTTP/1.1 CRLF CRLF` on a connection that takes one
byte per send, with a resource of four bytes. -/
theorem get_registered_writes_200_witness :
    ∃ s2 : buffered_stream,
      client_turn (fun _ => "icon".toList)
        (buffered_stream.init { incoming := ["GET /fav.png HTTP/1.1\r\n\r\n".toList],
                                accept := fun _ _ => 1, received := [], sent := [] })
        = some (s2, false)
      ∧ s2.stream.output = "HTTP/1.1 200 OK\r\nContent-Length: 4\r\n\r\nicon".toList := by
  obtain ⟨⟨s2, hturn, hout⟩, _⟩ := get_registered_writes_200 (fun _ => "icon".toList)
    (buffered_stream.init { incoming := ["GET /fav.png HTTP/1.1\r\n\r\n".toList],
                            accept := fun _ _ => 1, received := [], sent := [] })
    (parse_head "GET /fav.png HTTP/1.1\r\n\r\n".toList) "data/fav.png".toList "icon".toList
    (by decide) (by decide) (by decide) rfl (fun _ _ _ => Nat.one_pos)
  exact ⟨s2, hturn, hout⟩


/-! ## Partial writes -/

/-- C6: `write_response` tolerates partial writes.  When every send that is
offered `k > 0` bytes takes at least one and at most `k` of them, the header
loop and the body loop end (more fuel does not change their result), every
send call offers the data from the first offset not yet taken, and the
bytes taken, in order, are `HTTP/1.1 `, the status line, CRLF,
`Content-Length: `, the decimal length of the body, two CRLF, and the body. -/
theorem write_response_partial_writes (s : buffered_stream) (message response : List Char)
    (hprog : ∀ i k, 0 < k → 1 ≤ s.stream.accept i k ∧ s.stream.accept i k ≤ k) :
    ∃ hcalls bcalls : List (List Char × Nat),
      (s.write_response message response).stream.sent = s.stream.sent ++ hcalls ++ bcalls
      ∧ sends_from ("HTTP/1.1 ".toList ++ message ++ "\r\nContent-Length: ".toList
          ++ (Nat.repr response.length).toList ++ "\r\n\r\n".toList) 0 hcalls
      ∧ sends_from response 0 bcalls
      ∧ taken (hcalls ++ bcalls)
        = "HTTP/1.1 ".toList ++ message ++ "\r\nContent-Length: ".toList
          ++ (Nat.repr response.length).toList ++ "\r\n\r\n".toList ++ response
      ∧ (s.write_response message response).stream.output
        = s.stream.output ++ ("HTTP/1.1 ".toList ++ message ++ "\r\nContent-Length: ".toList
          ++ (Nat.repr response.length).toList ++ "\r\n\r\n".toList ++ response)
      ∧ (∀ fuel t, (response_head message response).length + 1 ≤ fuel →
          send_loop fuel (response_head message response) 0 t
            = send_loop ((response_head message response).length + 1)
                (response_head message response) 0 t)
      ∧ (∀ fuel t, response.length + 1 ≤ fuel →
          send_loop fuel response 0 t = send_loop (response.length + 1) response 0 t) := by
  obtain ⟨hcalls, bcalls, h1, _, h3, b3, _, _, _, _, h6, b6, h7⟩ :=
    write_response_calls s message response
  have hall : ∀ i k, 0 < k → 0 < s.stream.accept i k := fun i k hk => (hprog i k hk).1
  have hh := h6.mpr (fun c hc => h7 hall c (List.mem_append_left _ hc))
  have hb := b6.mpr (fun c hc => h7 hall c (List.mem_append_right _ hc))
  refine ⟨hcalls, bcalls, h1, h3, b3, ?_, ?_, ?_, ?_⟩
  · rw [taken_append, hh, hb]; rfl
  · rw [write_response_output s message response hall, List.append_assoc]; rfl
  · intro fuel t hfuel
    exact send_loop_fuel _ _ _ 0 t (Nat.zero_le _) (by omega) (by omega)
  · intro fuel t hfuel
    exact send_loop_fuel _ _ _ 0 t (Nat.zero_le _) (by omega) (by omega)

/-- A transport that takes half of the offered bytes, rounded up, on every
send. -/
theorem write_response_partial_writes_witness :
    ((buffered_stream.init { incoming := [], accept := fun _ k => (k + 1) / 2,
                             received := [], sent := [] }).write_response
        "404 NOT FOUND".toList "not found".toList).stream.output
      = "HTTP/1.1 404 NOT FOUND\r\nContent-Length: 9\r\n\r\nnot found".toList := by
  obtain ⟨_, _, _, _, _, _, hout, _⟩ := write_response_partial_writes
    (buffered_stream.init { incoming := [], accept := fun _ k => (k + 1) / 2,
                            received := [], sent := [] })
    "404 NOT FOUND".toList "not found".toList
    (fun i k hk => by
      change 1 ≤ (k + 1) / 2 ∧ (k + 1) / 2 ≤ k
      omega)
  rw [hout]
  rfl

/-! ## Zero progress -/

theorem prefix_pair_eq (a b x y : List Char) (ha : a <+: x) (hb : b <+: y)
    (h : a ++ b = x ++ y) : a = x ∧ b = y := by
  have hl := congrArg List.length h
  simp only [List.length_append] at hl
  have h1 := ha.length_le
  have h2 := hb.length_le
  have hax : a = x := ha.eq_of_length (by omega)
  subst hax
  exact ⟨rfl, List.append_cancel_left h⟩

/-- C7, as the program has it: `write_response` has no failure result and
returns for every behaviour of the transport.  A send that reports zero
progress is the last call of its loop, and the bytes on the wire are the
whole header block and the whole body exactly when no send that was
offered bytes reported zero progress. -/
theorem write_response_zero_progress (s : buffered_stream) (message response : List Char) :
    ∃ hcalls bcalls : List (List Char × Nat),
      (s.write_response message response).stream.sent = s.stream.sent ++ hcalls ++ bcalls
      ∧ sends_from (response_head message response) 0 hcalls
      ∧ sends_from response 0 bcalls
      ∧ (∀ c ∈ hcalls.dropLast, 0 < c.2) ∧ (∀ c ∈ bcalls.dropLast, 0 < c.2)
      ∧ ((s.write_response message response).stream.output
            = s.stream.output ++ response_head message response ++ response
          ↔ ∀ c ∈ hcalls ++ bcalls, c.1 ≠ [] → 0 < c.2) := by
  obtain ⟨hcalls, bcalls, h1, _, h3, b3, h4, b4, h5, b5, h6, b6, _⟩ :=
    write_response_calls s message response
  refine ⟨hcalls, bcalls, h1, h3, b3, h4, b4, ?_⟩
  have hout : (s.write_response message response).stream.output
      = s.stream.output ++ (taken hcalls ++ taken bcalls) := by
    rw [List.append_assoc] at h1
    rw [output_of_sent _ _ _ h1, taken_append]
  rw [hout, List.append_assoc, List.append_cancel_left_eq]
  constructor
  · intro h c hc
    obtain ⟨e1, e2⟩ := prefix_pair_eq _ _ _ _ h5 b5 h
    rw [List.mem_append] at hc
    rcases hc with hc | hc
    · exact h6.mp e1 c hc
    · exact b6.mp e2 c hc
  · intro h
    rw [h6.mpr (fun c hc => h c (List.mem_append_left _ hc)),
      b6.mpr (fun c hc => h c (List.mem_append_right _ hc))]

/-- C7, as stated, fails: on a transport whose first send reports zero
progress and whose later sends take everything, `write_response` returns
after the header loop gave up, with the body sent and the header block
missing. -/
theorem write_response_zero_progress_counterexample :
    ((buffered_stream.init { incoming := [], accept := fun i k => if i = 0 then 0 else k,
                             received := [], sent := [] }).write_response
        "404 NOT FOUND".toList "not found".toList).stream.sent
      = [("HTTP/1.1 404 NOT FOUND\r\nContent-Length: 9\r\n\r\n".toList, 0),
         ("not found".toList, 9)]
    ∧ ((buffered_stream.init { incoming := [], accept := fun i k => if i = 0 then 0 else k,
                               received := [], sent := [] }).write_response
        "404 NOT FOUND".toList "not found".toList).stream.output
      = "not found".toList
    ∧ ((buffered_stream.init { incoming := [], accept := fun i k => if i = 0 then 0 else k,
                               received := [], sent := [] }).write_response
        "404 NOT FOUND".toList "not found".toList).stream.output
      ≠ "HTTP/1.1 404 NOT FOUND\r\nContent-Length: 9\r\n\r\nnot found".toList := by
  decide


/-! ## Requests that are not `GET` -/

/-- C9: for a request whose method is non-empty and not `GET`, the handler
makes no send call in this turn, so that no byte is written, and the loop
continues or ends by the keep-alive decision on the request's `Connection`
header, the same decision as for a `GET`. -/
theorem non_get_sends_nothing (files : List Char → List Char) (s : buffered_stream)
    (r : request) (hread : (read_http_request s).map Prod.fst = some r)
    (hm : r.method ≠ []) (hng : r.method ≠ "GET".toList) :
    ∃ s2 : buffered_stream,
      client_turn files s = some (s2, keep_alive_of r)
      ∧ s2.stream.sent = s.stream.sent
      ∧ s2.stream.output = s.stream.output
      ∧ (keep_alive_of r = true
          ↔ r.headers.lookup "Connection".toList = some "Keep-Alive".toList) := by
  obtain ⟨s1, hr⟩ := read_request_cases s r hread
  obtain ⟨hsent, _⟩ := read_http_request_sent s s1 r hr
  have hturn := client_turn_of_request files s s1 r hr hm
  have hresp : (respond files r s1).1 = s1 := by
    unfold respond
    simp only [hng, if_false]
  rw [hresp] at hturn
  refine ⟨s1, hturn, hsent, ?_, keep_alive_of_iff r⟩
  unfold transport.output
  rw [hsent]

/-- The requests `POST / HTTP/1.1` with `Connection: Keep-Alive`: nothing is
sent and the loop goes round again. -/
theorem non_get_sends_nothing_witness :
    ∃ s2 : buffered_stream,
      client_turn (fun _ => [])
        (buffered_stream.init (transport.of_chunks
          ["POST / HTTP/1.1\r\nConnection: Keep-Alive\r\n\r\n".toList]))
        = some (s2, true)
      ∧ s2.stream.sent = [] := by
  obtain ⟨s2, h1, h2, _, _⟩ := non_get_sends_nothing (fun _ => [])
    (buffered_stream.init (transport.of_chunks
      ["POST / HTTP/1.1\r\nConnection: Keep-Alive\r\n\r\n".toList]))
    (parse_head "POST / HTTP/1.1\r\nConnection: Keep-Alive\r\n\r\n".toList)
    (by decide) (by decide) (by decide)
  exact ⟨s2, h1, h2⟩

/-! ## A peer that closes -/

/-- The coroutine `read_http_request` in one expression. -/
theorem read_http_request_eq (s : buffered_stream) :
    read_http_request s
      = s.read_head.2.consume.map (fun s2 => (parse_head s.read_head.1, s2)) := by
  unfold read_http_request
  generalize s.read_head = res
  obtain ⟨head, s1⟩ := res
  simp only
  cases s1.consume <;> rfl

theorem consume_stream (s s2 : buffered_stream) (h : s.consume = some s2) :
    s2.stream = s.stream := by
  unfold buffered_stream.consume at h
  split at h
  · simp only [Option.some.injEq] at h
    rw [← h]
  · exact Option.noConfusion h

/-- C8, as far as the program goes: when `read_head` returns the empty
result and `pos` is within the buffer, the turn makes no further receive,
does not depend on the resources, offers exactly
`HTTP/1.1 550 ERROR CRLF Content-Length: 0 CRLF CRLF` and an empty body to the
transport, and ends the handler.  When `pos` is beyond `buffer.size()`, which
is the state after a partial head, the `consume()` before the response is
undefined and nothing is guaranteed. -/
theorem empty_head_turn (s : buffered_stream) (hempty : s.read_head.1 = []) :
    (s.read_head.2.pos ≤ s.read_head.2.buffer.length →
      ∃ (s2 : buffered_stream) (hcalls bcalls : List (List Char × Nat)),
        (∀ files, client_turn files s = some (s2, false))
        ∧ s2.stream.sent = s.stream.sent ++ hcalls ++ bcalls
        ∧ sends_from "HTTP/1.1 550 ERROR\r\nContent-Length: 0\r\n\r\n".toList 0 hcalls
        ∧ sends_from [] 0 bcalls
        ∧ s2.stream.received = s.read_head.2.stream.received)
    ∧ (¬ s.read_head.2.pos ≤ s.read_head.2.buffer.length →
        ∀ files, (client_turn files s).isNone = true) := by
  constructor
  · intro hpos
    have hc : s.read_head.2.consume = some { s.read_head.2 with
        buffer := s.read_head.2.buffer.drop s.read_head.2.pos
        end_ := if s.read_head.2.pos ≤ s.read_head.2.end_
          then s.read_head.2.end_ - s.read_head.2.pos
          else s.read_head.2.end_ + 2 ^ 64 - s.read_head.2.pos
        pos := 0 } := by
      unfold buffered_stream.consume
      rw [if_pos hpos]
    obtain ⟨s1, hs1⟩ : ∃ s1, s.read_head.2.consume = some s1 := ⟨_, hc⟩
    have hstream := consume_stream _ _ hs1
    have hread : read_http_request s = some (parse_head [], s1) := by
      rw [read_http_request_eq, hs1, hempty]
      rfl
    obtain ⟨hcalls, bcalls, h1, ⟨_, h2⟩, h3, b3, _⟩ :=
      write_response_calls s1 "550 ERROR".toList []
    have hsent := (read_head_loop_sent (s.stream.pending + 1) s).1
    change s.read_head.2.stream.sent = s.stream.sent at hsent
    refine ⟨s1.write_response "550 ERROR".toList [], hcalls, bcalls, ?_, ?_, h3, b3, ?_⟩
    · intro files
      unfold client_turn
      rw [hread]
      rfl
    · rw [h1, hstream, hsent]
    · rw [h2, hstream]
  · intro hpos files
    have hc : s.read_head.2.consume = none := by
      unfold buffered_stream.consume
      rw [if_neg hpos]
    unfold client_turn
    rw [read_http_request_eq, hc]
    rfl

/-- The input `GET` followed by a close: `read_head` returns the empty result
with `pos = npos`, and the turn is undefined. -/
theorem empty_head_turn_witness :
    (buffered_stream.init (transport.of_chunks ["GET".toList])).read_head.2.pos = 2 ^ 64 - 1
      ∧ (client_turn (fun _ => [])
          (buffered_stream.init (transport.of_chunks ["GET".toList]))).isNone = true :=
  ⟨by decide,
    (empty_head_turn (buffered_stream.init (transport.of_chunks ["GET".toList]))
      (by decide)).2 (by decide) (fun _ => [])⟩

/-- C10 at the input `GET` followed by a close: `read_head` returns the empty
result with `pos = npos` and `end = 3`, so `pos ≤ end` fails, and `pos` is
beyond `buffer.size()`, so the `consume()` of `read_http_request` is
undefined. -/
theorem close_after_partial_head_breaks_invariant :
    (buffered_stream.init (transport.of_chunks ["GET".toList])).read_head.1 = []
      ∧ (buffered_stream.init (transport.of_chunks ["GET".toList])).read_head.2.pos
          = 2 ^ 64 - 1
      ∧ (buffered_stream.init (transport.of_chunks ["GET".toList])).read_head.2.end_ = 3
      ∧ (buffered_stream.init (transport.of_chunks ["GET".toList])).read_head.2.buffer.length
          = 1024
      ∧ ¬ ((buffered_stream.init (transport.of_chunks ["GET".toList])).read_head.2.pos
          ≤ (buffered_stream.init (transport.of_chunks ["GET".toList])).read_head.2.end_)
      ∧ (buffered_stream.init (transport.of_chunks ["GET".toList])).read_head.2.consume.isNone
          = true := by
  decide


/-! ## Termination of `read_head` -/

/-- The loop of `read_head` ends by itself: with more fuel than pending bytes
its result does not depend on the fuel. -/
theorem read_head_loop_fuel :
    ∀ (fuel1 fuel2 : Nat) (s : buffered_stream),
      s.stream.pending < fuel1 → s.stream.pending < fuel2 →
      read_head_loop fuel1 s = read_head_loop fuel2 s := by
  intro fuel1
  induction fuel1 with
  | zero => intro fuel2 s h; omega
  | succ fuel1 ih =>
    intro fuel2 s h1 h2
    cases fuel2 with
    | zero => omega
    | succ fuel2 =>
      rw [read_head_loop, read_head_loop]
      simp only
      generalize hB : (if s.buffer.length = s.end_ then
          s.buffer ++ List.replicate s.buffer.length '\x00' else s.buffer) = B
      have hp := async_receive_pending s.stream (B.length - s.end_)
      generalize async_receive s.stream (B.length - s.end_) = r at hp
      obtain ⟨data, t⟩ := r
      simp only at hp ⊢
      split
      · rfl
      · next hn =>
        split
        · exact ih fuel2 _ (by simp only; omega) (by simp only; omega)
        · rfl


/-! ## `consume()` -/

/-- C11: for a head buffer with `pos ≤ end ≤ buffer.size()`, `consume()` is
defined, sets `end` to `end - pos` and `pos` to `0`, and the first `end - pos`
bytes of the buffer afterwards are the bytes that were at the offsets
`[pos, end)` before the call, in order. -/
theorem consume_shifts (s : buffered_stream) (h1 : s.pos ≤ s.end_)
    (h2 : s.end_ ≤ s.buffer.length) :
    ∃ s2 : buffered_stream, s.consume = some s2
      ∧ s2.end_ = s.end_ - s.pos ∧ s2.pos = 0
      ∧ s2.buffer.take (s.end_ - s.pos) = slice s.buffer s.pos s.end_
      ∧ (slice s.buffer s.pos s.end_).length = s.end_ - s.pos
      ∧ s2.stream = s.stream := by
  refine ⟨{ s with buffer := s.buffer.drop s.pos, end_ := s.end_ - s.pos, pos := 0 },
    ?_, rfl, rfl, ?_, ?_, rfl⟩
  · unfold buffered_stream.consume
    rw [if_pos (Nat.le_trans h1 h2), if_pos h1]
  · unfold slice
    simp only
    rw [List.drop_take]
  · unfold slice
    rw [List.length_drop, List.length_take, Nat.min_eq_left h2]

/-- A buffer that holds a head of 18 bytes and the first 3 bytes of the next
request. -/
theorem consume_shifts_witness :
    ∃ s2 : buffered_stream,
      (buffered_stream.mk (transport.of_chunks [])
          ("GET / HTTP/1.1\r\n\r\nGETxyz".toList) 18 21).consume = some s2
      ∧ s2.end_ = 3 ∧ s2.pos = 0 ∧ s2.buffer.take 3 = "GET".toList := by
  obtain ⟨s2, h, he, hp, hb, _, _⟩ := consume_shifts
    (buffered_stream.mk (transport.of_chunks [])
      ("GET / HTTP/1.1\r\n\r\nGETxyz".toList) 18 21) (by decide) (by decide)
  exact ⟨s2, h, he, hp, hb.trans (by decide)⟩


/-! ## The size of the buffer -/

/-- The loop of `read_head` is the iteration of `read_head_turn`. -/
theorem read_head_loop_succ (fuel : Nat) (s : buffered_stream) :
    read_head_loop (fuel + 1) s
      = match read_head_turn s with
        | Sum.inl r => r
        | Sum.inr s1 => read_head_loop fuel s1 := by
  rw [read_head_loop]
  unfold read_head_turn
  simp only
  generalize async_receive s.stream _ = r
  obtain ⟨data, t⟩ := r
  simp only
  split
  · rfl
  · split <;> rfl

/-- The buffer after one turn of `read_head`: its size and its first `end`
bytes. -/
theorem read_head_turn_buffer (s : buffered_stream) :
    (read_head_turn_state s).buffer.length
        = (if s.buffer.length = s.end_ then 2 * s.buffer.length else s.buffer.length)
      ∧ (read_head_turn_state s).buffer.take s.end_ = s.buffer.take s.end_ := by
  unfold read_head_turn_state read_head_turn
  simp only
  generalize hB : (if s.buffer.length = s.end_ then
      s.buffer ++ List.replicate s.buffer.length '\x00' else s.buffer) = B
  have hBlen : B.length
      = (if s.buffer.length = s.end_ then 2 * s.buffer.length else s.buffer.length) := by
    rw [← hB]
    split
    · simp only [List.length_append, List.length_replicate]; omega
    · rfl
  have hBtake : B.take s.end_ = s.buffer.take s.end_ := by
    rw [← hB]
    split
    · next h => rw [List.take_append_of_le_length (Nat.le_of_eq h.symm)]
    · rfl
  have hrl := async_receive_length_le s.stream (B.length - s.end_)
  generalize async_receive s.stream (B.length - s.end_) = r at hrl
  obtain ⟨data, t⟩ := r
  simp only at hrl ⊢
  by_cases hn : data.length = 0
  · simp only [hn, if_true]
    exact ⟨hBlen, hBtake⟩
  · simp only [hn, if_false]
    have hle : s.end_ + data.length ≤ B.length := by omega
    have hlen := length_store B data s.end_ hle
    have htk : (B.take s.end_ ++ data ++ B.drop (s.end_ + data.length)).take s.end_
        = s.buffer.take s.end_ := by
      rw [List.append_assoc, List.take_append_of_le_length
        (by rw [List.length_take]; omega), List.take_take, Nat.min_self, hBtake]
    cases first_match sep
        ((B.take s.end_ ++ data ++ B.drop (s.end_ + data.length)).take
          (s.end_ + data.length)) with
    | none => exact ⟨hlen.trans hBlen, htk⟩
    | some p => exact ⟨hlen.trans hBlen, htk⟩

/-- Over a whole run of `read_head` the size of the buffer is multiplied by a
power of two. -/
theorem read_head_loop_size :
    ∀ (fuel : Nat) (s : buffered_stream),
      ∃ j : Nat, (read_head_loop fuel s).2.buffer.length = s.buffer.length * 2 ^ j := by
  intro fuel
  induction fuel with
  | zero => intro s; exact ⟨0, by simp [read_head_loop]⟩
  | succ fuel ih =>
    intro s
    have hb := (read_head_turn_buffer s).1
    rw [read_head_loop_succ]
    unfold read_head_turn_state at hb
    cases hturn : read_head_turn s with
    | inl r =>
      rw [hturn] at hb
      simp only at hb ⊢
      by_cases h : s.buffer.length = s.end_
      · rw [if_pos h] at hb; exact ⟨1, by rw [hb]; omega⟩
      · rw [if_neg h] at hb; exact ⟨0, by rw [hb]; omega⟩
    | inr s1 =>
      rw [hturn] at hb
      simp only at hb ⊢
      obtain ⟨j, hj⟩ := ih s1
      by_cases h : s.buffer.length = s.end_
      · rw [if_pos h] at hb
        exact ⟨j + 1, by rw [hj, hb, Nat.pow_succ]; ring⟩
      · rw [if_neg h] at hb
        exact ⟨j, by rw [hj, hb]⟩

/-- C12: within `read_head` the size of the buffer changes only by being
doubled, at the start of a turn in which `end` equals `buffer.size()`; the
bytes at `[0, end)` are as before after the turn; a run of `read_head`
multiplies the size by a power of two and so never reduces it;
`write_response` leaves the buffer alone; and a `consume()` that is defined
reduces the size by exactly `pos`. -/
theorem buffer_size_changes :
    (∀ s : buffered_stream,
        (read_head_turn_state s).buffer.length
          = (if s.buffer.length = s.end_ then 2 * s.buffer.length else s.buffer.length))
      ∧ (∀ s : buffered_stream,
        (read_head_turn_state s).buffer.take s.end_ = s.buffer.take s.end_)
      ∧ (∀ (fuel : Nat) (s : buffered_stream),
        read_head_loop (fuel + 1) s
          = match read_head_turn s with
            | Sum.inl r => r
            | Sum.inr s1 => read_head_loop fuel s1)
      ∧ (∀ s : buffered_stream,
        ∃ j : Nat, s.read_head.2.buffer.length = s.buffer.length * 2 ^ j)
      ∧ (∀ s : buffered_stream, s.buffer.length ≤ s.read_head.2.buffer.length)
      ∧ (∀ (s : buffered_stream) (message response : List Char),
        (s.write_response message response).buffer = s.buffer)
      ∧ (∀ s s2 : buffered_stream, s.consume = some s2 →
        s.pos ≤ s.buffer.length ∧ s2.buffer.length = s.buffer.length - s.pos) := by
  refine ⟨fun s => (read_head_turn_buffer s).1, fun s => (read_head_turn_buffer s).2,
    read_head_loop_succ, fun s => read_head_loop_size _ s, ?_, fun _ _ _ => rfl, ?_⟩
  · intro s
    obtain ⟨j, hj⟩ := read_head_loop_size (s.stream.pending + 1) s
    change s.read_head.2.buffer.length = _ at hj
    rw [hj]
    exact Nat.le_mul_of_pos_right _ (Nat.pos_pow_of_pos j (by decide))
  · intro s s2 h
    unfold buffered_stream.consume at h
    split at h
    · next hp =>
      simp only [Option.some.injEq] at h
      subst h
      exact ⟨hp, List.length_drop _ _⟩
    · exact Option.noConfusion h

/-- A head of 18 bytes in a buffer of 1024: `consume()` leaves 1006 bytes. -/
theorem buffer_size_changes_witness :
    ∃ s2 : buffered_stream,
      (buffered_stream.init (transport.of_chunks
          ["GET / HTTP/1.1\r\n\r\n".toList])).read_head.2.consume = some s2
      ∧ s2.buffer.length = 1006 := by
  have hsome : ((buffered_stream.init (transport.of_chunks
      ["GET / HTTP/1.1\r\n\r\n".toList])).read_head.2.consume).isSome = true := by decide
  cases h : (buffered_stream.init (transport.of_chunks
      ["GET / HTTP/1.1\r\n\r\n".toList])).read_head.2.consume with
  | none => rw [h] at hsome; exact absurd hsome (by decide)
  | some s2 =>
    refine ⟨s2, rfl, ?_⟩
    rw [(buffer_size_changes.2.2.2.2.2.2 _ s2 h).2]
    decide


/-! ## One turn of `read_head`, in general -/

theorem first_match_append (v P Q : List Char) (p : Nat) (hv : v ≠ [])
    (hp : first_match v P = some p) : first_match v (P ++ Q) = some p := by
  obtain ⟨hp1, hp2⟩ := (first_match_eq_some v P p).mp hp
  have hlen : p + v.length ≤ P.length := by
    have h1 := hp1.length_le
    rw [List.length_drop] at h1
    have h2 : 0 < v.length := List.length_pos.mpr hv
    omega
  rw [first_match_eq_some]
  refine ⟨prefix_drop_append v P Q p hp1, fun j hj hpre => ?_⟩
  exact hp2 j hj (prefix_drop_of_append v P Q j hpre (by omega))

theorem async_receive_arrived (t : transport) (free : Nat) :
    (async_receive t free).2.arrived = t.arrived ++ (async_receive t free).1 := by
  unfold async_receive transport.arrived
  split
  · simp
  · split <;> simp

/-- What a first occurrence at offset `k` says about the head `S.take (k + 4)`:
it has `k + 4` bytes, ends with the terminator, and holds no other
occurrence. -/
theorem head_shape (S : List Char) (k : Nat) (hk : first_match sep S = some k) :
    (S.take (k + 4)).length = k + 4
      ∧ (S.take (k + 4)).drop k = sep
      ∧ ∀ j, sep <+: (S.take (k + 4)).drop j → j = k := by
  obtain ⟨h1, h2⟩ := (first_match_eq_some sep S k).mp hk
  have hl : sep.length = 4 := rfl
  have hlen : k + 4 ≤ S.length := by
    have := h1.length_le
    rw [List.length_drop, hl] at this
    have hpos : k < S.length := by
      by_contra hcon
      rw [List.drop_eq_nil_of_le (by omega)] at h1
      exact absurd (List.prefix_nil.mp h1) (by decide)
    omega
  have hlen2 : (S.take (k + 4)).length = k + 4 := by
    rw [List.length_take, Nat.min_eq_left hlen]
  refine ⟨hlen2, ?_, ?_⟩
  · rw [List.drop_take, Nat.add_sub_cancel_left]
    obtain ⟨r, hr⟩ := h1
    rw [← hr, List.take_append_of_le_length (by rw [hl]), List.take_of_length_le (by rw [hl])]
  · intro j hj
    have hjl := hj.length_le
    rw [List.length_drop, hlen2, hl] at hjl
    have hjpos : j < k + 4 := by
      by_contra hcon
      rw [List.drop_eq_nil_of_le (by omega)] at hj
      exact absurd (List.prefix_nil.mp hj) (by decide)
    have hjk : j ≤ k := by omega
    rcases Nat.lt_or_eq_of_le hjk with hlt | heq
    · have hS : S = S.take (k + 4) ++ S.drop (k + 4) := (List.take_append_drop _ _).symm
      have := prefix_drop_append sep (S.take (k + 4)) (S.drop (k + 4)) j hj
      rw [← hS] at this
      exact absurd this (h2 j hlt)
    · exact heq

/-- A turn of `read_head` that returns, from a state with
`end ≤ buffer.size()`. -/
theorem read_head_turn_inl (s : buffered_stream) (r : List Char × buffered_stream)
    (hle : s.end_ ≤ s.buffer.length) (h : read_head_turn s = Sum.inl r) :
    (r.1 = [] ∨ ∃ k,
        first_match sep (s.buffer.take s.end_ ++ s.stream.incoming.flatten) = some k
        ∧ r.1 = (s.buffer.take s.end_ ++ s.stream.incoming.flatten).take (k + 4)
        ∧ r.2.pos = k + 4 ∧ k + 4 ≤ r.2.end_
        ∧ r.2.stream.pending < s.stream.pending)
      ∧ r.2.end_ ≤ r.2.buffer.length
      ∧ r.2.buffer.take r.2.end_ ++ r.2.stream.incoming.flatten
          = s.buffer.take s.end_ ++ s.stream.incoming.flatten
      ∧ r.2.stream.arrived ++ r.2.stream.incoming.flatten
          = s.stream.arrived ++ s.stream.incoming.flatten
      ∧ r.2.stream.pending ≤ s.stream.pending := by
  unfold read_head_turn at h
  simp only at h
  obtain ⟨B, hB, hBlen, hBtake⟩ : ∃ B : List Char,
      B = (if s.buffer.length = s.end_ then
            s.buffer ++ List.replicate s.buffer.length '\x00' else s.buffer)
      ∧ s.end_ ≤ B.length ∧ B.take s.end_ = s.buffer.take s.end_ := by
    refine ⟨_, rfl, ?_, ?_⟩
    · split
      · simp only [List.length_append, List.length_replicate]; omega
      · omega
    · split
      · rw [List.take_append_of_le_length hle]
      · rfl
  rw [← hB] at h
  have hrl := async_receive_length_le s.stream (B.length - s.end_)
  have hrf := async_receive_flatten s.stream (B.length - s.end_)
  have hrp := async_receive_pending s.stream (B.length - s.end_)
  have hra := async_receive_arrived s.stream (B.length - s.end_)
  generalize async_receive s.stream (B.length - s.end_) = rr at h hrl hrf hrp hra
  obtain ⟨data, t⟩ := rr
  simp only at h hrl hrf hrp hra
  by_cases hn : data.length = 0
  · simp only [hn, if_true, Sum.inl.injEq] at h
    subst h
    have hd : data = [] := List.length_eq_zero.mp hn
    subst hd
    simp only [List.nil_append, List.append_nil, List.length_nil, Nat.add_zero] at hrf hrp hra
    refine ⟨Or.inl rfl, hBlen, ?_, ?_, ?_⟩
    · simp only [hBtake, hrf]
    · simp only [hra, hrf]
    · simp only; omega
  · simp only [hn, if_false] at h
    have htake := take_store B data s.end_ hBlen
    have hlen := length_store B data s.end_ (by omega)
    have hstream : B.take s.end_ ++ data ++ t.incoming.flatten
        = s.buffer.take s.end_ ++ s.stream.incoming.flatten := by
      rw [List.append_assoc, hrf, hBtake]
    rw [htake] at h
    cases hm : first_match sep (B.take s.end_ ++ data) with
    | none => rw [hm] at h; exact Sum.noConfusion h
    | some p =>
      rw [hm] at h
      simp only [Sum.inl.injEq] at h
      subst h
      have hfull := first_match_append sep _ t.incoming.flatten p (by decide) hm
      rw [hstream] at hfull
      have hlenp : p + 4 ≤ (B.take s.end_ ++ data).length := by
        have h1 := ((first_match_eq_some sep _ p).mp hm).1.length_le
        rw [List.length_drop] at h1
        have h2 : sep.length = 4 := rfl
        have hpos : p < (B.take s.end_ ++ data).length := by
          by_contra hcon
          have h3 := ((first_match_eq_some sep _ p).mp hm).1
          rw [List.drop_eq_nil_of_le (by omega)] at h3
          exact absurd (List.prefix_nil.mp h3) (by decide)
        omega
      have hke : p + 4 ≤ s.end_ + data.length := by
        simp only [List.length_append, List.length_take] at hlenp
        omega
      have h1 : (B.take s.end_ ++ data ++ B.drop (s.end_ + data.length)).take (p + 4)
          = (B.take s.end_ ++ data).take (p + 4) := by
        conv_rhs => rw [← htake]
        rw [List.take_take, Nat.min_eq_left hke]
      have h2 : (B.take s.end_ ++ data ++ t.incoming.flatten).take (p + 4)
          = (B.take s.end_ ++ data).take (p + 4) :=
        List.take_append_of_le_length hlenp
      refine ⟨Or.inr ⟨p, hfull, ?_, rfl, hke, ?_⟩, ?_, ?_, ?_, ?_⟩
      · simp only
        rw [← hstream, h1, h2]
      · simp only; omega
      · simp only; omega
      · simp only
        rw [htake, hstream]
      · simp only [hra]
        rw [List.append_assoc, hrf]
      · simp only; omega

/-- A turn of `read_head` after which the loop goes round again, from a state
with `end ≤ buffer.size()`. -/
theorem read_head_turn_inr (s s1 : buffered_stream)
    (hle : s.end_ ≤ s.buffer.length) (h : read_head_turn s = Sum.inr s1) :
    s1.end_ ≤ s1.buffer.length
      ∧ s1.buffer.take s1.end_ ++ s1.stream.incoming.flatten
          = s.buffer.take s.end_ ++ s.stream.incoming.flatten
      ∧ s1.stream.arrived ++ s1.stream.incoming.flatten
          = s.stream.arrived ++ s.stream.incoming.flatten
      ∧ s1.stream.pending < s.stream.pending := by
  unfold read_head_turn at h
  simp only at h
  obtain ⟨B, hB, hBlen, hBtake⟩ : ∃ B : List Char,
      B = (if s.buffer.length = s.end_ then
            s.buffer ++ List.replicate s.buffer.length '\x00' else s.buffer)
      ∧ s.end_ ≤ B.length ∧ B.take s.end_ = s.buffer.take s.end_ := by
    refine ⟨_, rfl, ?_, ?_⟩
    · split
      · simp only [List.length_append, List.length_replicate]; omega
      · omega
    · split
      · rw [List.take_append_of_le_length hle]
      · rfl
  rw [← hB] at h
  have hrl := async_receive_length_le s.stream (B.length - s.end_)
  have hrf := async_receive_flatten s.stream (B.length - s.end_)
  have hrp := async_receive_pending s.stream (B.length - s.end_)
  have hra := async_receive_arrived s.stream (B.length - s.end_)
  generalize async_receive s.stream (B.length - s.end_) = rr at h hrl hrf hrp hra
  obtain ⟨data, t⟩ := rr
  simp only at h hrl hrf hrp hra
  by_cases hn : data.length = 0
  · simp only [hn, if_true] at h
    exact Sum.noConfusion h
  · simp only [hn, if_false] at h
    have htake := take_store B data s.end_ hBlen
    have hlen := length_store B data s.end_ (by omega)
    rw [htake] at h
    cases hm : first_match sep (B.take s.end_ ++ data) with
    | some p => rw [hm] at h; exact Sum.noConfusion h
    | none =>
      rw [hm] at h
      simp only [Sum.inr.injEq] at h
      subst h
      refine ⟨?_, ?_, ?_, ?_⟩
      · simp only; omega
      · simp only
        rw [htake, List.append_assoc, hrf, hBtake]
      · simp only [hra]
        rw [List.append_assoc, hrf]
      · simp only; omega


/-! ## Successive heads on one connection -/

/-- A run of `read_head` from a state with `end ≤ buffer.size()`: the result
is empty, or it is the stream of buffered and pending bytes up to its first
terminator; no byte is lost. -/
theorem read_head_loop_spec :
    ∀ (fuel : Nat) (s : buffered_stream), s.end_ ≤ s.buffer.length →
      ((read_head_loop fuel s).1 = [] ∨ ∃ k,
          first_match sep (s.buffer.take s.end_ ++ s.stream.incoming.flatten) = some k
          ∧ (read_head_loop fuel s).1
              = (s.buffer.take s.end_ ++ s.stream.incoming.flatten).take (k + 4)
          ∧ (read_head_loop fuel s).2.pos = k + 4
          ∧ k + 4 ≤ (read_head_loop fuel s).2.end_
          ∧ (read_head_loop fuel s).2.stream.pending < s.stream.pending)
        ∧ (read_head_loop fuel s).2.end_ ≤ (read_head_loop fuel s).2.buffer.length
        ∧ (read_head_loop fuel s).2.buffer.take (read_head_loop fuel s).2.end_
            ++ (read_head_loop fuel s).2.stream.incoming.flatten
            = s.buffer.take s.end_ ++ s.stream.incoming.flatten
        ∧ (read_head_loop fuel s).2.stream.arrived
            ++ (read_head_loop fuel s).2.stream.incoming.flatten
            = s.stream.arrived ++ s.stream.incoming.flatten
        ∧ (read_head_loop fuel s).2.stream.pending ≤ s.stream.pending := by
  intro fuel
  induction fuel with
  | zero =>
    intro s hle
    exact ⟨Or.inl rfl, hle, rfl, rfl, Nat.le_refl _⟩
  | succ fuel ih =>
    intro s hle
    rw [read_head_loop_succ]
    cases hturn : read_head_turn s with
    | inl r => exact read_head_turn_inl s r hle hturn
    | inr s1 =>
      simp only
      obtain ⟨h1, h2, h3, h4⟩ := read_head_turn_inr s s1 hle hturn
      obtain ⟨i1, i2, i3, i4, i5⟩ := ih s1 h1
      refine ⟨?_, i2, i3.trans h2, i4.trans h3, by omega⟩
      rcases i1 with i1 | ⟨k, k1, k2, k3, k4, k5⟩
      · exact Or.inl i1
      · rw [h2] at k1 k2
        exact Or.inr ⟨k, k1, k2, k3, k4, by omega⟩

/-- A run of `read_head`, stated for the member function. -/
theorem read_head_spec (s : buffered_stream) (hle : s.end_ ≤ s.buffer.length) :
    (s.read_head.1 = [] ∨ ∃ k,
        first_match sep (s.buffer.take s.end_ ++ s.stream.incoming.flatten) = some k
        ∧ s.read_head.1 = (s.buffer.take s.end_ ++ s.stream.incoming.flatten).take (k + 4)
        ∧ s.read_head.2.pos = k + 4
        ∧ k + 4 ≤ s.read_head.2.end_
        ∧ s.read_head.2.stream.pending < s.stream.pending)
      ∧ s.read_head.2.end_ ≤ s.read_head.2.buffer.length
      ∧ s.read_head.2.buffer.take s.read_head.2.end_
          ++ s.read_head.2.stream.incoming.flatten
          = s.buffer.take s.end_ ++ s.stream.incoming.flatten
      ∧ s.read_head.2.stream.arrived ++ s.read_head.2.stream.incoming.flatten
          = s.stream.arrived ++ s.stream.incoming.flatten
      ∧ s.read_head.2.stream.pending ≤ s.stream.pending :=
  read_head_loop_spec (s.stream.pending + 1) s hle

/-- The call `consume()` after a head was found, from `pos ≤ end ≤ size`. -/
theorem consume_of_le (s : buffered_stream) (h1 : s.pos ≤ s.end_)
    (h2 : s.end_ ≤ s.buffer.length) :
    s.consume = some ⟨s.stream, s.buffer.drop s.pos, 0, s.end_ - s.pos⟩ := by
  unfold buffered_stream.consume
  rw [if_pos (Nat.le_trans h1 h2), if_pos h1]

/-- The heads that successive `read_head` calls return, each followed by
`consume()`, are consecutive segments of the stream of buffered and pending
bytes, and each of them holds the terminator exactly once, at its end. -/
theorem read_heads_spec :
    ∀ (fuel : Nat) (s : buffered_stream), s.end_ ≤ s.buffer.length →
      (read_heads fuel s).1.flatten
          ++ ((read_heads fuel s).2.buffer.take (read_heads fuel s).2.end_
            ++ (read_heads fuel s).2.stream.incoming.flatten)
          = s.buffer.take s.end_ ++ s.stream.incoming.flatten
        ∧ (read_heads fuel s).2.stream.arrived
            ++ (read_heads fuel s).2.stream.incoming.flatten
            = s.stream.arrived ++ s.stream.incoming.flatten
        ∧ ∀ h ∈ (read_heads fuel s).1,
            4 ≤ h.length ∧ h.drop (h.length - 4) = sep
              ∧ ∀ j, sep <+: h.drop j → j = h.length - 4 := by
  intro fuel
  induction fuel with
  | zero =>
    intro s _
    exact ⟨rfl, rfl, fun h hh => absurd hh (List.not_mem_nil h)⟩
  | succ fuel ih =>
    intro s hle
    rw [read_heads]
    obtain ⟨hA, hB, hC, hD, _⟩ := read_head_spec s hle
    generalize s.read_head = r at hA hB hC hD
    obtain ⟨head, s1⟩ := r
    simp only at hA hB hC hD ⊢
    by_cases hnil : head = []
    · simp only [hnil, if_true, List.flatten_nil, List.nil_append]
      exact ⟨hC, hD, fun h hh => absurd hh (List.not_mem_nil h)⟩
    · simp only [hnil, if_false]
      rcases hA with hA | ⟨k, k1, k2, k3, k4, _⟩
      · exact absurd hA hnil
      · have hc := consume_of_le s1 (by omega) hB
        rw [hc]
        simp only
        obtain ⟨i1, i2, i3⟩ := ih ⟨s1.stream, s1.buffer.drop s1.pos, 0, s1.end_ - s1.pos⟩
          (by simp only [List.length_drop]; omega)
        simp only at i1 i2 i3
        obtain ⟨g1, g2, g3⟩ := head_shape _ k k1
        rw [← k2] at g1 g2 g3
        refine ⟨?_, i2.trans hD, ?_⟩
        · rw [List.flatten_cons, List.append_assoc, i1, ← hC, k3]
          have hstep : (s1.buffer.drop (k + 4)).take (s1.end_ - (k + 4))
              = (s1.buffer.take s1.end_).drop (k + 4) := by
            rw [List.drop_take]
          rw [hstep, k2, ← hC, ← List.append_assoc]
          have hlen : k + 4 ≤ (s1.buffer.take s1.end_).length := by
            rw [List.length_take, Nat.min_eq_left hB]; exact k4
          rw [List.take_append_of_le_length hlen, List.take_append_drop]
        · intro h hh
          rw [List.mem_cons] at hh
          rcases hh with rfl | hh
          · rw [g1, Nat.add_sub_cancel]
            exact ⟨by omega, g2, g3⟩
          · exact i3 h hh

/-- The iteration of `read_head` and `consume()` ends by itself: with more
fuel than pending bytes its result does not depend on the fuel. -/
theorem read_heads_fuel :
    ∀ (fuel1 fuel2 : Nat) (s : buffered_stream), s.end_ ≤ s.buffer.length →
      s.stream.pending < fuel1 → s.stream.pending < fuel2 →
      read_heads fuel1 s = read_heads fuel2 s := by
  intro fuel1
  induction fuel1 with
  | zero => intro fuel2 s _ h; omega
  | succ fuel1 ih =>
    intro fuel2 s hle h1 h2
    cases fuel2 with
    | zero => omega
    | succ fuel2 =>
      rw [read_heads, read_heads]
      obtain ⟨hA, hB, _, _, _⟩ := read_head_spec s hle
      generalize s.read_head = r at hA hB
      obtain ⟨head, s1⟩ := r
      simp only at hA hB ⊢
      by_cases hnil : head = []
      · simp only [hnil, if_true]
      · simp only [hnil, if_false]
        rcases hA with hA | ⟨k, _, _, k3, k4, k5⟩
        · exact absurd hA hnil
        · rw [consume_of_le s1 (by omega) hB]
          simp only
          rw [ih fuel2 _ (by simp only [List.length_drop]; omega)
            (by simp only; omega) (by simp only; omega)]


/-- C14: framing is preserved across keep-alive cycles.  On a fresh
connection, for every sequence of chunks, the non-empty heads returned by
successive `read_head` calls, each followed by `consume()`, concatenate to a
prefix of the stream; the bytes received are exactly these heads followed by
the bytes still in the buffer, so nothing is lost or duplicated; each head
ends with CRLFCRLF and holds no other occurrence of it; and the iteration
ends by itself.  In the example the three bytes that arrive after the first
terminator start the second head. -/
theorem framing_preserved (t : transport) :
    (read_heads (t.pending + 1) (buffered_stream.init t)).1.flatten <+: t.incoming.flatten
      ∧ (read_heads (t.pending + 1) (buffered_stream.init t)).2.stream.arrived
          = t.arrived ++ (read_heads (t.pending + 1) (buffered_stream.init t)).1.flatten
            ++ (read_heads (t.pending + 1) (buffered_stream.init t)).2.buffer.take
                (read_heads (t.pending + 1) (buffered_stream.init t)).2.end_
      ∧ (∀ h ∈ (read_heads (t.pending + 1) (buffered_stream.init t)).1,
          4 ≤ h.length ∧ h.drop (h.length - 4) = sep
            ∧ ∀ j, sep <+: h.drop j → j = h.length - 4)
      ∧ (∀ fuel, t.pending + 1 ≤ fuel →
          read_heads fuel (buffered_stream.init t)
            = read_heads (t.pending + 1) (buffered_stream.init t))
      ∧ (read_heads 30 (buffered_stream.init (transport.of_chunks
            ["GET /a H\r\n\r\nGET".toList, " /b H\r\n\r\n".toList]))).1
          = ["GET /a H\r\n\r\n".toList, "GET /b H\r\n\r\n".toList] := by
  have hle : (buffered_stream.init t).end_ ≤ (buffered_stream.init t).buffer.length := by
    rw [init_end]; exact Nat.zero_le _
  obtain ⟨h1, h2, h3⟩ := read_heads_spec (t.pending + 1) (buffered_stream.init t) hle
  rw [init_end, List.take_zero, List.nil_append, init_stream] at h1
  rw [init_stream] at h2
  refine ⟨⟨_, h1⟩, ?_, h3, ?_, by decide⟩
  · rw [← h1, ← List.append_assoc, ← List.append_assoc] at h2
    exact List.append_cancel_right h2
  · intro fuel hfuel
    exact read_heads_fuel fuel (t.pending + 1) (buffered_stream.init t) hle
      (by rw [init_stream]; omega) (by rw [init_stream]; omega)


/-! ## The cursor on any range -/

theorem std_find_le (c : Char) (R : List Char) : std_find c R ≤ R.length := by
  induction R with
  | nil => exact Nat.le_refl _
  | cons x xs ih =>
    unfold std_find
    split
    · exact Nat.zero_le _
    · simp only [List.length_cons]; omega

theorem std_find_of_not_mem (c : Char) (R : List Char) (h : c ∉ R) :
    std_find c R = R.length := by
  induction R with
  | nil => rfl
  | cons x xs ih =>
    have hx : x ≠ c := fun e => h (by simp [e])
    have hxs : c ∉ xs := fun e => h (List.mem_cons_of_mem _ e)
    simp [std_find, hx, ih hxs]

theorem std_find_eq_zero (c : Char) (x : Char) (xs : List Char) :
    std_find c (x :: xs) = 0 ↔ x = c := by
  unfold std_find
  split
  · next h => simp [h]
  · next h => simp [h]

theorem splits_take (p : parser) (A R Z : List Char) (m : Nat) (hm : m ≤ R.length)
    (hmem : p.mem = A ++ R ++ Z) (hit : p.it = A.length + m)
    (hend : p.end_ = A.length + R.length) :
    p.splits (A ++ R.take m) (R.drop m) Z := by
  refine ⟨?_, ?_, ?_⟩
  · rw [hmem, List.append_assoc A (R.take m), List.take_append_drop]
  · rw [hit, List.length_append, List.length_take, Nat.min_eq_left hm]
  · rw [hend, List.length_append, List.length_take, List.length_drop, Nat.min_eq_left hm]
    omega

/-- The call `find(c)` on any range `R`: the token is `R` up to the first `c`,
or all of `R`, and the cursor moves past the token and the delimiter. -/
theorem find_general (p : parser) (A R Z : List Char) (c : Char) (h : p.splits A R Z) :
    (p.find c).1 = R.take (std_find c R)
      ∧ (p.find c).2.splits (A ++ R.take (min (std_find c R + 1) R.length))
          (R.drop (min (std_find c R + 1) R.length)) Z := by
  have hr := range_of_splits p _ _ _ h
  obtain ⟨h1, h2, h3⟩ := h
  have hle := std_find_le c R
  unfold parser.find
  simp only [hr]
  refine ⟨?_, ?_⟩
  · rw [h1, h2, slice_splits A R Z _ hle]
  · refine splits_take _ A R Z _ (Nat.min_le_right _ _) (by exact h1) ?_ (by exact h3)
    simp only [h2, h3]
    by_cases hn : std_find c R = R.length
    · rw [if_pos (by omega), hn, Nat.min_eq_right (by omega)]
    · rw [if_neg (by omega), Nat.min_eq_left (by omega)]
      omega

theorem first_match_bound (v R : List Char) (k : Nat) (h : first_match v R = some k) :
    k + v.length ≤ R.length := by
  obtain ⟨h1, h2⟩ := (first_match_eq_some v R k).mp h
  have hl := h1.length_le
  rw [List.length_drop] at hl
  by_cases hk : k ≤ R.length
  · omega
  · rw [List.drop_eq_nil_of_le (by omega)] at h1
    have hv : v = [] := List.prefix_nil.mp h1
    exact absurd (by rw [hv]; exact List.nil_prefix) (h2 0 (by omega))

/-- The call `search(v)` on any range `R`: the token is `R` up to the first
occurrence of `v`, or all of `R`, and the cursor moves past the token and
the occurrence. -/
theorem search_general (p : parser) (A R Z v : List Char) (h : p.splits A R Z) :
    (p.search v).1 = R.take (std_search R v)
      ∧ std_search R v ≤ R.length
      ∧ (p.search v).2.splits
          (A ++ R.take (if std_search R v = R.length then R.length
                        else std_search R v + v.length))
          (R.drop (if std_search R v = R.length then R.length
                   else std_search R v + v.length)) Z := by
  have hr := range_of_splits p _ _ _ h
  obtain ⟨h1, h2, h3⟩ := h
  have hle : std_search R v ≤ R.length ∧
      (std_search R v ≠ R.length → std_search R v + v.length ≤ R.length) := by
    unfold std_search
    cases hm : first_match v R with
    | none => simp
    | some k =>
      have := first_match_bound v R k hm
      simp only [Option.getD_some]
      exact ⟨by omega, fun _ => this⟩
  unfold parser.search
  simp only [hr]
  refine ⟨?_, hle.1, ?_⟩
  · rw [h1, h2, slice_splits A R Z _ hle.1]
  · by_cases hn : std_search R v = R.length
    · rw [if_pos hn]
      refine splits_take _ A R Z _ (Nat.le_refl _) (by exact h1) ?_ (by exact h3)
      simp only [h2, h3]
      rw [if_neg (by omega), hn]
    · rw [if_neg hn]
      refine splits_take _ A R Z _ (hle.2 hn) (by exact h1) ?_ (by exact h3)
      simp only [h2, h3]
      rw [if_pos (by omega)]
      omega

theorem skip_whitespace_loop_bound (e : Nat) (Z : List Char) (hZ : Z.head? ≠ some '\t') :
    ∀ (R : List Char) (it : Nat), it + R.length = e →
      ∃ m, m ≤ R.length ∧ skip_whitespace_loop e (R ++ Z) it = it + m := by
  intro R
  induction R with
  | nil =>
    intro it hit
    refine ⟨0, Nat.le_refl _, ?_⟩
    simp only [List.length_nil, Nat.add_zero] at hit
    cases Z with
    | nil => rfl
    | cons z zs =>
      have hz : z ≠ '\t' := fun e => hZ (by simp [e])
      simp [skip_whitespace_loop, hit, hz]
  | cons r rs ih =>
    intro it hit
    simp only [List.length_cons] at hit
    rw [List.cons_append, skip_whitespace_loop]
    split
    · obtain ⟨m, hm, heq⟩ := ih (it + 1) (by omega)
      exact ⟨m + 1, by simp only [List.length_cons]; omega, by rw [heq]; omega⟩
    · exact ⟨0, Nat.zero_le _, rfl⟩

/-- The call `skip_whitespace()` on any range, when the byte at `end` is not a
tab: the cursor moves forward and stays at or before `end`. -/
theorem skip_whitespace_general (p : parser) (A R Z : List Char) (h : p.splits A R Z)
    (hZ : Z.head? ≠ some '\t') :
    ∃ m, m ≤ R.length ∧ p.skip_whitespace.splits (A ++ R.take m) (R.drop m) Z := by
  obtain ⟨h1, h2, h3⟩ := h
  have hdrop : p.mem.drop p.it = R ++ Z := by
    rw [h1, h2, List.append_assoc, List.drop_append_of_le_length (Nat.le_refl _),
      List.drop_length, List.nil_append]
  obtain ⟨m, hm, heq⟩ := skip_whitespace_loop_bound p.end_ Z hZ R p.it (by omega)
  refine ⟨m, hm, ?_⟩
  refine splits_take _ A R Z m hm (by exact h1) ?_ (by exact h3)
  unfold parser.skip_whitespace
  simp only
  rw [hdrop, heq, h2]

/-- One turn of the header loop on any range, when the byte at `end` is not a
tab: the cursor moves forward, by at least one byte when the range is not
empty, and stays at or before `end`. -/
theorem header_turn_general (p : parser) (A R Z : List Char) (h : p.splits A R Z)
    (hZ : Z.head? ≠ some '\t') :
    ∃ m, m ≤ R.length ∧ (R ≠ [] → 0 < m)
      ∧ (header_turn p).splits (A ++ R.take m) (R.drop m) Z := by
  obtain ⟨_, f2⟩ := find_general p A R Z ':' h
  obtain ⟨m2, hm2, s2⟩ := skip_whitespace_general _ _ _ Z f2 hZ
  obtain ⟨_, _, g2⟩ := search_general _ _ _ Z crlf s2
  generalize hm1 : min (std_find ':' R + 1) R.length = m1 at f2 s2 g2 hm2
  generalize hm3 : (if std_search ((R.drop m1).drop m2) crlf = ((R.drop m1).drop m2).length
      then ((R.drop m1).drop m2).length
      else std_search ((R.drop m1).drop m2) crlf + crlf.length) = m3 at g2
  have hm1le : m1 ≤ R.length := by rw [← hm1]; exact Nat.min_le_right _ _
  have hm3le : m3 ≤ ((R.drop m1).drop m2).length := by
    rw [← hm3]
    split
    · exact Nat.le_refl _
    · next hne =>
      have hb : std_search ((R.drop m1).drop m2) crlf ≤ ((R.drop m1).drop m2).length ∧
          (std_search ((R.drop m1).drop m2) crlf ≠ ((R.drop m1).drop m2).length →
            std_search ((R.drop m1).drop m2) crlf + crlf.length
              ≤ ((R.drop m1).drop m2).length) := by
        unfold std_search
        cases hm : first_match crlf ((R.drop m1).drop m2) with
        | none => simp
        | some k =>
          have := first_match_bound crlf _ k hm
          simp only [Option.getD_some]
          exact ⟨by omega, fun _ => this⟩
      exact hb.2 hne
  simp only [List.length_drop] at hm2 hm3le
  refine ⟨m1 + m2 + m3, by omega, ?_, ?_⟩
  · intro hR
    have : 0 < R.length := List.length_pos.mpr hR
    have : 0 < m1 := by rw [← hm1]; omega
    omega
  · have e1 : A ++ R.take m1 ++ (R.drop m1).take m2 ++ ((R.drop m1).drop m2).take m3
        = A ++ R.take (m1 + m2 + m3) := by
      rw [List.append_assoc, List.append_assoc]
      congr 1
      rw [List.take_add, List.take_add, List.append_assoc, List.drop_drop]
    have e2 : ((R.drop m1).drop m2).drop m3 = R.drop (m1 + m2 + m3) := by
      rw [List.drop_drop, List.drop_drop]
      first
        | rfl
        | (congr 1; omega)
    unfold header_turn
    rw [← e1, ← e2]
    exact g2


/-! ## The parse of any head -/

/-- A cursor with `it ≤ end ≤ size` splits its array. -/
theorem splits_of_valid (p : parser) (h1 : p.it ≤ p.end_) (h2 : p.end_ ≤ p.mem.length) :
    p.splits (p.mem.take p.it) p.range (p.mem.drop p.end_) := by
  have hr : p.range = (p.mem.take p.end_).drop p.it := rfl
  have hlen : p.range.length = p.end_ - p.it := by
    rw [hr, List.length_drop, List.length_take, Nat.min_eq_left h2]
  refine ⟨?_, ?_, ?_⟩
  · have e1 : p.mem.take p.it ++ p.range = p.mem.take p.end_ := by
      rw [hr]
      have : p.mem.take p.it = (p.mem.take p.end_).take p.it := by
        rw [List.take_take, Nat.min_eq_left h1]
      rw [this, List.take_append_drop]
    rw [e1, List.take_append_drop]
  · rw [List.length_take, Nat.min_eq_left (Nat.le_trans h1 h2)]
  · rw [hlen, List.length_take, Nat.min_eq_left (Nat.le_trans h1 h2)]
    omega

/-- A cursor of the parse of a head that ends with the terminator: the bytes
from `end` on are the final CRLF. -/
theorem splits_of_head (b : List Char) (p : parser) (hmem : p.mem = b ++ sep)
    (hend : p.end_ = (b ++ sep).length - 2) (hit : p.it ≤ p.end_) :
    p.splits (p.mem.take p.it) p.range crlf := by
  have hl : (b ++ sep).length = b.length + 4 := by rw [List.length_append]; rfl
  have h2 : p.end_ ≤ p.mem.length := by rw [hend, hmem]; omega
  have h := splits_of_valid p hit h2
  have hz : p.mem.drop p.end_ = crlf := by
    rw [hmem, hend, hl]
    have : b.length + 4 - 2 = b.length + 2 := by omega
    rw [this, List.drop_append_eq_append_drop, List.drop_of_length_le (by omega),
      List.nil_append]
    have : b.length + 2 - b.length = 2 := by omega
    rw [this]
    rfl
  rw [hz] at h
  exact h

theorem splits_moved (p q : parser) (A R Z : List Char) (m : Nat) (hm : m ≤ R.length)
    (hp : p.splits A R Z) (hq : q.splits (A ++ R.take m) (R.drop m) Z) :
    q.mem = p.mem ∧ q.end_ = p.end_ ∧ q.it = p.it + m := by
  obtain ⟨p1, p2, p3⟩ := hp
  obtain ⟨q1, q2, q3⟩ := hq
  refine ⟨?_, ?_, ?_⟩
  · rw [q1, p1, List.append_assoc A (R.take m), List.take_append_drop]
  · rw [q3, p3, List.length_append, List.length_take, List.length_drop, Nat.min_eq_left hm]
    omega
  · rw [q2, p2, List.length_append, List.length_take, Nat.min_eq_left hm]

/-- The header loop, one turn unfolded. -/
theorem header_loop_succ (fuel : Nat) (p : parser) (h : header_map) :
    header_loop (fuel + 1) p h
      = if p.empty then h
        else header_loop fuel (header_turn p)
          (h.assign (p.find ':').1 ((p.find ':').2.skip_whitespace.search crlf).1) := by
  rw [header_loop]
  rfl

/-- The header loop ends by itself when the byte at `end` is not a tab: with
more fuel than bytes in the range its result does not depend on the fuel. -/
theorem header_loop_fuel (Z : List Char) (hZ : Z.head? ≠ some '\t') :
    ∀ (fuel1 fuel2 : Nat) (p : parser) (A R : List Char) (h : header_map),
      p.splits A R Z → R.length < fuel1 → R.length < fuel2 →
      header_loop fuel1 p h = header_loop fuel2 p h := by
  intro fuel1
  induction fuel1 with
  | zero => intro fuel2 p A R h _ h1; omega
  | succ fuel1 ih =>
    intro fuel2 p A R h hsp h1 h2
    cases fuel2 with
    | zero => omega
    | succ fuel2 =>
      rw [header_loop_succ, header_loop_succ]
      by_cases hemp : p.empty = true
      · rw [if_pos hemp, if_pos hemp]
      · rw [if_neg hemp, if_neg hemp]
        have hR : R ≠ [] := fun e => hemp ((empty_of_splits p A R Z hsp).mpr e)
        obtain ⟨m, hm, hpos, hturn⟩ := header_turn_general p A R Z hsp hZ
        have := hpos hR
        exact ih fuel2 _ _ _ _ hturn
          (by rw [List.length_drop]; omega) (by rw [List.length_drop]; omega)

/-- The three calls keep a cursor of the parse of a head that ends with the
terminator within bounds, and do not move it backwards. -/
theorem within_step (b : List Char) (p q : parser) (m : Nat)
    (hp : p.within (b ++ sep)) (hm : m ≤ p.range.length)
    (hq : q.splits (p.mem.take p.it ++ p.range.take m) (p.range.drop m) crlf) :
    q.within (b ++ sep) ∧ q.it = p.it + m := by
  obtain ⟨hmem, hend, _, hit⟩ := hp
  have hsp := splits_of_head b p hmem hend hit
  obtain ⟨t1, t2, t3⟩ := splits_moved p q _ _ _ m hm hsp hq
  have a := hsp.2.1
  have c := hsp.2.2
  exact ⟨⟨t1.trans hmem, t2.trans hend, Nat.zero_le _, by omega⟩, t3⟩

theorem within_find (b : List Char) (p : parser) (c : Char) (hp : p.within (b ++ sep)) :
    (p.find c).2.within (b ++ sep) ∧ p.it ≤ (p.find c).2.it
      ∧ (p.it < p.end_ → p.it < (p.find c).2.it) := by
  have hsp := splits_of_head b p hp.1 hp.2.1 hp.2.2.2
  obtain ⟨_, f⟩ := find_general p _ _ crlf c hsp
  obtain ⟨w, e⟩ := within_step b p _ _ hp (Nat.min_le_right _ _) f
  have a := hsp.2.1
  have d := hsp.2.2
  exact ⟨w, by omega, fun hlt => by omega⟩

theorem within_skip_whitespace (b : List Char) (p : parser) (hp : p.within (b ++ sep)) :
    p.skip_whitespace.within (b ++ sep) ∧ p.it ≤ p.skip_whitespace.it := by
  have hsp := splits_of_head b p hp.1 hp.2.1 hp.2.2.2
  obtain ⟨m, hm, f⟩ := skip_whitespace_general p _ _ crlf hsp (by decide)
  obtain ⟨w, e⟩ := within_step b p _ m hp hm f
  exact ⟨w, by omega⟩

theorem within_search (b : List Char) (p : parser) (v : List Char)
    (hp : p.within (b ++ sep)) :
    (p.search v).2.within (b ++ sep) ∧ p.it ≤ (p.search v).2.it := by
  have hsp := splits_of_head b p hp.1 hp.2.1 hp.2.2.2
  obtain ⟨_, hle, f⟩ := search_general p _ _ crlf v hsp
  have hm : (if std_search p.range v = p.range.length then p.range.length
      else std_search p.range v + v.length) ≤ p.range.length := by
    split
    · exact Nat.le_refl _
    · next hne =>
      unfold std_search at hne ⊢
      cases hfm : first_match v p.range with
      | none => rw [hfm] at hne; simp at hne
      | some k =>
        simp only [Option.getD_some]
        exact first_match_bound v _ k hfm
  obtain ⟨w, e⟩ := within_step b p _ _ hp hm f
  exact ⟨w, by omega⟩

theorem within_header_turn (b : List Char) (p : parser) (hp : p.within (b ++ sep)) :
    (header_turn p).within (b ++ sep) ∧ p.it ≤ (header_turn p).it
      ∧ (p.it < p.end_ → p.it < (header_turn p).it) := by
  obtain ⟨w1, l1, s1⟩ := within_find b p ':' hp
  obtain ⟨w2, l2⟩ := within_skip_whitespace b _ w1
  obtain ⟨w3, l3⟩ := within_search b _ crlf w2
  unfold header_turn
  exact ⟨w3, by omega, fun hlt => by have := s1 hlt; omega⟩

/-- The cursor of `read_http_request` as constructed, for a head that ends
with the terminator. -/
theorem within_start (b : List Char) :
    parser.within ⟨b ++ sep, 0, (b ++ sep).length - 2⟩ (b ++ sep) :=
  ⟨rfl, rfl, Nat.le_refl _, Nat.zero_le _⟩

/-- C15: the parse of a head that ends with CRLFCRLF terminates.  For a
cursor `p` of that parse with `it ≤ end`, one turn of the header loop leaves
the array and `end` alone, keeps `it ≤ end`, and moves `it` forward when
`it < end`; so the loop is left after at most `end - it` turns, and more fuel
than that does not change the headers it returns.  The cursor after the
request line is such a cursor. -/
theorem parse_terminates (b : List Char) (p : parser) (h : header_map)
    (hmem : p.mem = b ++ sep) (hend : p.end_ = (b ++ sep).length - 2)
    (hit : p.it ≤ p.end_) :
    (header_turn p).mem = p.mem ∧ (header_turn p).end_ = p.end_
      ∧ (header_turn p).it ≤ p.end_
      ∧ (p.it < p.end_ → p.it < (header_turn p).it)
      ∧ (∀ fuel, header_loop (fuel + 1) p h
          = if p.empty then h
            else header_loop fuel (header_turn p)
              (h.assign (p.find ':').1 ((p.find ':').2.skip_whitespace.search crlf).1))
      ∧ (∀ fuel, p.end_ - p.it + 1 ≤ fuel →
          header_loop fuel p h = header_loop (p.end_ - p.it + 1) p h)
      ∧ ((parser.search (parser.find (parser.find
            ⟨b ++ sep, 0, (b ++ sep).length - 2⟩ ' ').2 ' ').2 crlf).2.mem = b ++ sep
        ∧ (parser.search (parser.find (parser.find
            ⟨b ++ sep, 0, (b ++ sep).length - 2⟩ ' ').2 ' ').2 crlf).2.end_
          = (b ++ sep).length - 2
        ∧ (parser.search (parser.find (parser.find
            ⟨b ++ sep, 0, (b ++ sep).length - 2⟩ ' ').2 ' ').2 crlf).2.it
          ≤ (b ++ sep).length - 2) := by
  have hZ : crlf.head? ≠ some '\t' := by decide
  have hp : p.within (b ++ sep) := ⟨hmem, hend, Nat.zero_le _, hit⟩
  have hsp := splits_of_head b p hmem hend hit
  obtain ⟨w, _, hadv⟩ := within_header_turn b p hp
  refine ⟨w.1.trans hmem.symm, w.2.1.trans hend.symm, ?_, hadv,
    fun fuel => header_loop_succ fuel p h, ?_, ?_⟩
  · have := w.2.2.2
    rw [w.2.1, ← hend] at this
    exact this
  · intro fuel hfuel
    have a := hsp.2.1
    have c := hsp.2.2
    exact header_loop_fuel crlf hZ _ _ p _ _ h hsp (by omega) (by omega)
  · obtain ⟨w1, _⟩ := within_find b _ ' ' (within_start b)
    obtain ⟨w2, _⟩ := within_find b _ ' ' w1
    obtain ⟨w3, _⟩ := within_search b _ crlf w2
    refine ⟨w3.1, w3.2.1, ?_⟩
    have := w3.2.2.2
    rw [w3.2.1] at this
    exact this

/-- A malformed head: a lone colon, a line without colon, tabs before the
final CRLF. -/
theorem parse_terminates_witness :
    (∀ fuel, (⟨"x y z\r\n:\r\nabc\r\nk:\t\t\r\n\r\n".toList, 0, 21⟩ : parser).end_
          - (⟨"x y z\r\n:\r\nabc\r\nk:\t\t\r\n\r\n".toList, 0, 21⟩ : parser).it + 1 ≤ fuel →
        header_loop fuel ⟨"x y z\r\n:\r\nabc\r\nk:\t\t\r\n\r\n".toList, 0, 21⟩ []
          = header_loop 22 ⟨"x y z\r\n:\r\nabc\r\nk:\t\t\r\n\r\n".toList, 0, 21⟩ [])
      ∧ (parse_head "x y z\r\n:\r\nabc\r\nk:\t\t\r\n\r\n".toList).headers
          = [([], []), ("abc\r\nk".toList, [])] :=
  ⟨(parse_terminates "x y z\r\n:\r\nabc\r\nk:\t\t".toList
      ⟨"x y z\r\n:\r\nabc\r\nk:\t\t\r\n\r\n".toList, 0, 21⟩ []
      (by decide) (by decide) (by decide)).2.2.2.2.2.1,
    by decide⟩


/-! ## The cursor stays within bounds -/

theorem within_header_loop_cursors (b : List Char) :
    ∀ (fuel : Nat) (p : parser), p.within (b ++ sep) →
      ∀ q ∈ header_loop_cursors fuel p, q.within (b ++ sep) := by
  intro fuel
  induction fuel with
  | zero => intro p _ q hq; simp [header_loop_cursors] at hq
  | succ fuel ih =>
    intro p hp q hq
    rw [header_loop_cursors] at hq
    split at hq
    · simp at hq
    · obtain ⟨w1, _⟩ := within_find b p ':' hp
      obtain ⟨w2, _⟩ := within_skip_whitespace b _ w1
      obtain ⟨w3, _⟩ := within_search b _ crlf w2
      simp only [List.mem_cons] at hq
      rcases hq with rfl | rfl | rfl | hq
      · exact w1
      · exact w2
      · exact w3
      · exact ih _ w3 q hq

/-- C19: for a head that ends with CRLFCRLF, every cursor of the parse, as
constructed and after each `find`, `search` and `skip_whitespace` call, points
into the head with `end` at the head's end minus 2 and `begin ≤ it ≤ end`.
The byte at `end` is the `'\r'` of the final CRLF, and `skip_whitespace`, which
reads that byte when `it` equals `end`, never moves `it` past `end`. -/
theorem cursor_within_bounds (b : List Char) :
    (∀ p ∈ parse_cursors (b ++ sep), p.within (b ++ sep))
      ∧ (b ++ sep)[(b ++ sep).length - 2]? = some '\r'
      ∧ (∀ p : parser, p.within (b ++ sep) →
          p.skip_whitespace.within (b ++ sep) ∧ p.it ≤ p.skip_whitespace.it)
      ∧ (∀ (p : parser) (c : Char), p.within (b ++ sep) → (p.find c).2.within (b ++ sep))
      ∧ (∀ (p : parser) (v : List Char), p.within (b ++ sep) →
          (p.search v).2.within (b ++ sep)) := by
  refine ⟨?_, ?_, fun p hp => within_skip_whitespace b p hp,
    fun p c hp => (within_find b p c hp).1, fun p v hp => (within_search b p v hp).1⟩
  · intro p hp
    unfold parse_cursors at hp
    have hne : b ++ sep ≠ [] := by simp [sep]
    rw [if_neg hne] at hp
    obtain ⟨w1, _⟩ := within_find b _ ' ' (within_start b)
    obtain ⟨w2, _⟩ := within_find b _ ' ' w1
    obtain ⟨w3, _⟩ := within_search b _ crlf w2
    simp only [List.mem_cons] at hp
    rcases hp with rfl | rfl | rfl | rfl | hp
    · exact within_start b
    · exact w1
    · exact w2
    · exact w3
    · exact within_header_loop_cursors b _ _ w3 p hp
  · have hl : (b ++ sep).length - 2 = b.length + 2 := by
      rw [List.length_append]
      have : sep.length = 4 := rfl
      omega
    rw [hl, List.getElem?_append_right (by omega)]
    have : b.length + 2 - b.length = 2 := by omega
    rw [this]
    rfl

/-- A head in which tabs run up to the final CRLF: the cursors of the parse,
and `skip_whitespace` called with `it` at `end`. -/
theorem cursor_within_bounds_witness :
    (parse_cursors "G / H\r\nk:\t\t\r\n\r\n".toList).map (fun p => (p.it, p.end_))
        = [(0, 13), (2, 13), (4, 13), (7, 13), (9, 13), (11, 13), (13, 13)]
      ∧ (parser.skip_whitespace ⟨"G / H\r\nk:\t\t\r\n\r\n".toList, 13, 13⟩).within
          ("G / H\r\nk:\t\t".toList ++ sep) :=
  ⟨by decide,
    ((cursor_within_bounds "G / H\r\nk:\t\t".toList).2.2.1
      ⟨"G / H\r\nk:\t\t\r\n\r\n".toList, 13, 13⟩
      ⟨by decide, by decide, by decide, by decide⟩).1⟩

/-! ## The empty method -/

theorem read_head_turn_shape (s : buffered_stream) (r : List Char × buffered_stream)
    (h : read_head_turn s = Sum.inl r) : r.1 = [] ∨ ∃ b, r.1 = b ++ sep := by
  unfold read_head_turn at h
  simp only at h
  generalize (if s.buffer.length = s.end_ then
      s.buffer ++ List.replicate s.buffer.length '\x00' else s.buffer) = B at h
  generalize async_receive s.stream (B.length - s.end_) = rr at h
  obtain ⟨data, t⟩ := rr
  simp only at h
  split at h
  · simp only [Sum.inl.injEq] at h
    exact Or.inl (by rw [← h])
  · split at h
    · exact Sum.noConfusion h
    · next k hk =>
      simp only [Sum.inl.injEq] at h
      have hb := first_match_bound sep _ k hk
      have hl : sep.length = 4 := rfl
      rw [hl, List.length_take] at hb
      obtain ⟨g1, g2, _⟩ := head_shape _ k hk
      rw [List.take_take, Nat.min_eq_left (by omega)] at g1 g2
      right
      rw [← h]
      simp only
      refine ⟨(List.take (k + 4)
        (B.take s.end_ ++ data ++ B.drop (s.end_ + data.length))).take k, ?_⟩
      conv_lhs => rw [← List.take_append_drop k (List.take (k + 4)
        (B.take s.end_ ++ data ++ B.drop (s.end_ + data.length)))]
      rw [g2]

/-- The result of `read_head` is empty or ends with the terminator. -/
theorem read_head_loop_shape :
    ∀ (fuel : Nat) (s : buffered_stream),
      (read_head_loop fuel s).1 = [] ∨ ∃ b, (read_head_loop fuel s).1 = b ++ sep := by
  intro fuel
  induction fuel with
  | zero => intro s; exact Or.inl rfl
  | succ fuel ih =>
    intro s
    rw [read_head_loop_succ]
    cases hturn : read_head_turn s with
    | inl r => exact read_head_turn_shape s r hturn
    | inr s1 => exact ih s1

/-- The method of the parse of a head that ends with the terminator is the
token of the first `find(' ')`; it is empty exactly when the head starts with
a space. -/
theorem parse_head_method (b : List Char) :
    (parse_head (b ++ sep)).method = [] ↔ (b ++ sep).head? = some ' ' := by
  have hne : b ++ sep ≠ [] := by simp [sep]
  have hm : (parse_head (b ++ sep)).method
      = (parser.find ⟨b ++ sep, 0, (b ++ sep).length - 2⟩ ' ').1 := by
    unfold parse_head
    rw [if_neg hne]
  have h0 := splits_of_head b ⟨b ++ sep, 0, (b ++ sep).length - 2⟩ rfl rfl (Nat.zero_le _)
  obtain ⟨f1, _⟩ := find_general _ _ _ crlf ' ' h0
  rw [hm, f1]
  obtain ⟨e1, _, e3⟩ := h0
  simp only [List.take_zero, List.nil_append, List.length_nil, Nat.zero_add] at e1 e3
  have hl : (b ++ sep).length = b.length + 4 := by rw [List.length_append]; rfl
  generalize (parser.range ⟨b ++ sep, 0, (b ++ sep).length - 2⟩) = R at e1 e3 ⊢
  rw [e1]
  cases R with
  | nil => simp only [List.length_nil] at e3; omega
  | cons x xs =>
    simp only [List.cons_append, List.head?_cons, Option.some.injEq]
    rw [← std_find_eq_zero]
    constructor
    · intro h
      by_contra hcon
      obtain ⟨n, hn⟩ := Nat.exists_eq_succ_of_ne_zero hcon
      rw [hn, List.take_succ_cons] at h
      exact List.cons_ne_nil _ _ h
    · intro h
      rw [h, List.take_zero]


/-- C18: the request that `read_http_request` returns has an empty method
exactly when the head that `read_head` returned is empty or starts with a
space.  The turn of the handler then writes `550 ERROR` and ends; for any
other head, which is not empty and does not start with a space, the turn is
the dispatch of `respond` and no `550 ERROR` is written. -/
theorem empty_method_iff (files : List Char → List Char) (s : buffered_stream)
    (r : request) (hread : (read_http_request s).map Prod.fst = some r) :
    (r.method = [] ↔ s.read_head.1 = [] ∨ s.read_head.1.head? = some ' ')
      ∧ (∃ s1 : buffered_stream, read_http_request s = some (r, s1)
          ∧ (s.read_head.1 = [] ∨ s.read_head.1.head? = some ' ' →
              client_turn files s
                = some (s1.write_response "550 ERROR".toList [], false))
          ∧ (¬ (s.read_head.1 = [] ∨ s.read_head.1.head? = some ' ') →
              client_turn files s = some (respond files r s1)))
      ∧ (∀ b : List Char,
          (parse_head (b ++ sep)).method = [] ↔ (b ++ sep).head? = some ' ')
      ∧ (parse_head []).method = [] := by
  obtain ⟨s1, hr⟩ := read_request_cases s r hread
  have hparse : r = parse_head s.read_head.1 := by
    have h := hr
    rw [read_http_request_eq] at h
    cases hc : s.read_head.2.consume with
    | none => rw [hc] at h; exact Option.noConfusion h
    | some s2 =>
      rw [hc] at h
      simp only [Option.map_some', Option.some.injEq, Prod.mk.injEq] at h
      exact h.1.symm
  have hiff : r.method = [] ↔ s.read_head.1 = [] ∨ s.read_head.1.head? = some ' ' := by
    rw [hparse]
    rcases read_head_loop_shape (s.stream.pending + 1) s with h0 | ⟨b, hb⟩
    · change s.read_head.1 = [] at h0
      rw [h0]
      exact ⟨fun _ => Or.inl rfl, fun _ => rfl⟩
    · change s.read_head.1 = b ++ sep at hb
      rw [hb, parse_head_method b]
      constructor
      · exact fun h => Or.inr h
      · intro h
        rcases h with h | h
        · exact absurd h (by simp [sep])
        · exact h
  refine ⟨hiff, ⟨s1, hr, ?_, ?_⟩, parse_head_method, rfl⟩
  · intro hc
    have hm := hiff.mpr hc
    unfold client_turn
    rw [hr]
    simp only [hm, if_true]
  · intro hc
    have hm : r.method ≠ [] := fun h => hc (hiff.mp h)
    exact client_turn_of_request files s s1 r hr hm

/-- A head that starts with a space takes the `550 ERROR` path. -/
theorem empty_method_iff_witness :
    ∃ s1 : buffered_stream,
      client_turn (fun _ => [])
        (buffered_stream.init (transport.of_chunks [" / HTTP/1.1\r\n\r\n".toList]))
        = some (s1.write_response "550 ERROR".toList [], false) := by
  obtain ⟨_, ⟨s1, _, h, _⟩, _⟩ := empty_method_iff (fun _ => [])
    (buffered_stream.init (transport.of_chunks [" / HTTP/1.1\r\n\r\n".toList]))
    (parse_head " / HTTP/1.1\r\n\r\n".toList) (by decide)
  exact ⟨s1, h (Or.inr (by decide))⟩


/-! ## Tokens and missing delimiters -/

theorem header_loop_of_empty (fuel : Nat) (p : parser) (h : header_map)
    (he : p.empty = true) :
    header_loop fuel p h = h ∧ header_loop_turns fuel p = 0 := by
  cases fuel with
  | zero => exact ⟨rfl, rfl⟩
  | succ fuel =>
    rw [header_loop_succ, if_pos he, header_loop_turns, if_pos he]
    exact ⟨rfl, rfl⟩

/-- One turn of the header loop on a non-empty range without colon, when the
byte at `end` is not a tab: the key is the whole range, the value is empty,
and the cursor is left at `end`. -/
theorem header_turn_no_colon (p : parser) (A R Z : List Char) (h : p.splits A R Z)
    (hc : ':' ∉ R) (hZ : Z.head? ≠ some '\t') :
    (p.find ':').1 = R
      ∧ ((p.find ':').2.skip_whitespace.search crlf).1 = []
      ∧ (header_turn p).empty = true := by
  obtain ⟨f1, f2⟩ := find_general p A R Z ':' h
  rw [std_find_of_not_mem ':' R hc] at f1 f2
  rw [List.take_length] at f1
  rw [Nat.min_eq_right (by omega), List.take_length, List.drop_length] at f2
  obtain ⟨m, hm, s2⟩ := skip_whitespace_general _ _ _ Z f2 hZ
  simp only [List.length_nil, Nat.le_zero] at hm
  subst hm
  simp only [List.take_zero, List.drop_zero, List.append_nil] at s2
  obtain ⟨g1, _, g2⟩ := search_general _ _ _ Z crlf s2
  refine ⟨f1, ?_, ?_⟩
  · rw [g1]; rfl
  · have hstd : std_search [] crlf = 0 := rfl
    rw [hstd] at g2
    simp only [List.length_nil, if_true, List.take_nil, List.drop_nil, List.append_nil] at g2
    exact (empty_of_splits _ _ _ _ g2).mpr rfl

/-- C16, with the empty text set apart.  On a range `R`, `find(c)` and
`search(v)` return `R` up to the first occurrence of the delimiter and move
the cursor just past that occurrence; when the delimiter does not occur they
return all of `R` and leave the parser empty.  When `R` is not empty and
holds no colon, and the byte at `end` is not a tab, the header loop makes
exactly one turn and stores `R` as a key with an empty value; when `R` is
empty the loop makes no turn and stores nothing.  So the parse of a head
whose text after the request line is `T`, not empty and without colon, has
the one header `T` with an empty value. -/
theorem find_search_tokens (p : parser) (A R Z : List Char) (h : p.splits A R Z) :
    (∀ (c : Char) (tok rest : List Char), R = tok ++ c :: rest → c ∉ tok →
        (p.find c).1 = tok ∧ (p.find c).2.splits (A ++ tok ++ [c]) rest Z)
      ∧ (∀ c : Char, c ∉ R →
        (p.find c).1 = R ∧ (p.find c).2.splits (A ++ R) [] Z ∧ (p.find c).2.empty = true)
      ∧ (∀ (v : List Char) (k : Nat), first_match v R = some k →
        (p.search v).1 = R.take k
          ∧ (p.search v).2.splits (A ++ R.take (k + v.length)) (R.drop (k + v.length)) Z)
      ∧ (∀ v : List Char, first_match v R = none →
        (p.search v).1 = R ∧ (p.search v).2.splits (A ++ R) [] Z
          ∧ (p.search v).2.empty = true)
      ∧ (R ≠ [] → ':' ∉ R → Z.head? ≠ some '\t' →
        ∀ (fuel : Nat) (hm : header_map),
          header_loop (fuel + 1) p hm = hm.assign R []
            ∧ header_loop_turns (fuel + 1) p = 1)
      ∧ (R = [] →
        ∀ (fuel : Nat) (hm : header_map),
          header_loop fuel p hm = hm ∧ header_loop_turns fuel p = 0)
      ∧ (∀ m u v T : List Char, ' ' ∉ m → ' ' ∉ u → '\r' ∉ v → T ≠ [] → ':' ∉ T →
        (parse_head (m ++ ' ' :: u ++ ' ' :: v ++ crlf ++ T ++ crlf)).headers
          = [(T, [])]) := by
  refine ⟨?_, ?_, ?_, ?_, ?_, ?_, ?_⟩
  · intro c tok rest hR hc
    subst hR
    exact find_splits p A tok rest Z c h hc
  · intro c hc
    obtain ⟨f1, f2⟩ := find_general p A R Z c h
    rw [std_find_of_not_mem c R hc] at f1 f2
    rw [List.take_length] at f1
    rw [Nat.min_eq_right (by omega), List.take_length, List.drop_length] at f2
    exact ⟨f1, f2, (empty_of_splits _ _ _ _ f2).mpr rfl⟩
  · intro v k hk
    obtain ⟨g1, _, g2⟩ := search_general p A R Z v h
    have hstd : std_search R v = k := by unfold std_search; rw [hk]; rfl
    have hb := first_match_bound v R k hk
    rw [hstd] at g1 g2
    have hm : (if k = R.length then R.length else k + v.length) = k + v.length := by
      split
      · omega
      · rfl
    rw [hm] at g2
    exact ⟨g1, g2⟩
  · intro v hv
    obtain ⟨g1, _, g2⟩ := search_general p A R Z v h
    have hstd : std_search R v = R.length := by unfold std_search; rw [hv]; rfl
    rw [hstd] at g1 g2
    rw [List.take_length] at g1
    simp only [if_true, List.take_length, List.drop_length] at g2
    exact ⟨g1, g2, (empty_of_splits _ _ _ _ g2).mpr rfl⟩
  · intro hR hc hZ fuel hm
    have hemp : ¬ p.empty = true := fun e => hR ((empty_of_splits p A R Z h).mp e)
    obtain ⟨t1, t2, t3⟩ := header_turn_no_colon p A R Z h hc hZ
    rw [header_loop_succ, if_neg hemp, t1, t2, header_loop_turns, if_neg hemp]
    obtain ⟨e1, e2⟩ := header_loop_of_empty fuel (header_turn p) (hm.assign R []) t3
    exact ⟨e1, by rw [e2]⟩
  · intro hR fuel hm
    exact header_loop_of_empty fuel p hm ((empty_of_splits p A R Z h).mpr hR)
  · intro m u v T hm hu hv hT hc
    have hshape : m ++ ' ' :: u ++ ' ' :: v ++ crlf ++ T ++ crlf
        = [] ++ (m ++ ' ' :: (u ++ ' ' :: (v ++ crlf ++ T))) ++ crlf := by
      simp
    have hne : m ++ ' ' :: u ++ ' ' :: v ++ crlf ++ T ++ crlf ≠ [] := by
      rw [hshape]; simp [crlf]
    have hsp : parser.splits ⟨m ++ ' ' :: u ++ ' ' :: v ++ crlf ++ T ++ crlf, 0,
          (m ++ ' ' :: u ++ ' ' :: v ++ crlf ++ T ++ crlf).length - 2⟩
        [] (m ++ ' ' :: (u ++ ' ' :: (v ++ crlf ++ T))) crlf := by
      refine ⟨hshape, rfl, ?_⟩
      simp only [hshape, List.length_append, List.length_nil, crlf, List.length_cons]
      omega
    obtain ⟨_, hf2⟩ := find_splits _ _ m _ _ ' ' hsp hm
    obtain ⟨_, hg2⟩ := find_splits _ _ u _ _ ' ' hf2 hu
    obtain ⟨_, hs2⟩ := search_splits _ _ v _ _ hg2 hv
    obtain ⟨t1, t2, t3⟩ := header_turn_no_colon _ _ T crlf hs2 hc (by decide)
    have hemp : ¬ (parser.search (parser.find (parser.find
        ⟨m ++ ' ' :: u ++ ' ' :: v ++ crlf ++ T ++ crlf, 0,
          (m ++ ' ' :: u ++ ' ' :: v ++ crlf ++ T ++ crlf).length - 2⟩ ' ').2 ' ').2
          crlf).2.empty = true :=
      fun e => hT ((empty_of_splits _ _ T crlf hs2).mp e)
    have hp : (parse_head (m ++ ' ' :: u ++ ' ' :: v ++ crlf ++ T ++ crlf)).headers
        = header_loop
            ((parser.search (parser.find (parser.find
              ⟨m ++ ' ' :: u ++ ' ' :: v ++ crlf ++ T ++ crlf, 0,
                (m ++ ' ' :: u ++ ' ' :: v ++ crlf ++ T ++ crlf).length - 2⟩ ' ').2 ' ').2
                crlf).2.end_
              - (parser.search (parser.find (parser.find
              ⟨m ++ ' ' :: u ++ ' ' :: v ++ crlf ++ T ++ crlf, 0,
                (m ++ ' ' :: u ++ ' ' :: v ++ crlf ++ T ++ crlf).length - 2⟩ ' ').2 ' ').2
                crlf).2.it + 1)
            (parser.search (parser.find (parser.find
              ⟨m ++ ' ' :: u ++ ' ' :: v ++ crlf ++ T ++ crlf, 0,
                (m ++ ' ' :: u ++ ' ' :: v ++ crlf ++ T ++ crlf).length - 2⟩ ' ').2 ' ').2
                crlf).2 [] := by
      unfold parse_head
      rw [if_neg hne]
    rw [hp, header_loop_succ, if_neg hemp, t1, t2]
    exact (header_loop_of_empty _ _ _ t3).1

/-- A cursor on the range `ab` followed by CRLF: `find('b')` returns `a`,
`find(':')` returns `ab` and leaves the parser empty, and the header loop
stores `ab` as a key. -/
theorem find_search_tokens_witness :
    (parser.find ⟨"ab\r\n".toList, 0, 2⟩ 'b').1 = "a".toList
      ∧ (parser.find ⟨"ab\r\n".toList, 0, 2⟩ ':').1 = "ab".toList
      ∧ (parser.find ⟨"ab\r\n".toList, 0, 2⟩ ':').2.empty = true
      ∧ header_loop 3 ⟨"ab\r\n".toList, 0, 2⟩ [] = [("ab".toList, [])] := by
  obtain ⟨h1, h2, _, _, h5, _⟩ := find_search_tokens ⟨"ab\r\n".toList, 0, 2⟩
    [] "ab".toList "\r\n".toList ⟨by decide, by decide, by decide⟩
  exact ⟨(h1 'b' "a".toList [] (by decide) (by decide)).1,
    (h2 ':' (by decide)).1, (h2 ':' (by decide)).2.2,
    (h5 (by decide) (by decide) (by decide) 2 []).1⟩

/-- C16, as stated, fails for the head `GET / HTTP/1.1 CRLF CRLF`: the text
after the request line is empty, so it holds no colon, and the header loop
makes no turn and stores nothing. -/
theorem find_search_tokens_counterexample :
    (parser.search (parser.find (parser.find
        ⟨"GET / HTTP/1.1\r\n\r\n".toList, 0, 16⟩ ' ').2 ' ').2 crlf).2.range = []
      ∧ header_loop_turns 1
          (parser.search (parser.find (parser.find
            ⟨"GET / HTTP/1.1\r\n\r\n".toList, 0, 16⟩ ' ').2 ' ').2 crlf).2 = 0
      ∧ (parse_head "GET / HTTP/1.1\r\n\r\n".toList).headers = []
      ∧ (parse_head "GET / HTTP/1.1\r\n\r\n".toList).headers ≠ [([], [])] := by
  decide


/-! ## A head that fills the buffer -/

/-- C17 at a head of exactly 1024 bytes that asks for keep-alive, followed by
a second request: after the first turn `consume()` has erased the whole
buffer, so `buffer.size()` and `end` are both `0`; the doubling step of the
next `read_head` leaves the size at `0`, the receive is offered an empty
region and reports zero bytes although the second request is pending, and
the handler answers `550 ERROR` and ends. -/
theorem full_buffer_head_leaves_no_room :
    ("GET / HTTP/1.1\r\nConnection: Keep-Alive\r\nX: ".toList ++ List.replicate 977 'a'
        ++ "\r\n\r\n".toList).length = 1024
      ∧ (client_turn (fun _ => "hi".toList)
          (buffered_stream.init (transport.of_chunks
            ["GET / HTTP/1.1\r\nConnection: Keep-Alive\r\nX: ".toList
                ++ List.replicate 977 'a' ++ "\r\n\r\n".toList,
              "GET / HTTP/1.1\r\n\r\n".toList]))).map
          (fun x => (x.2, x.1.buffer.length, x.1.end_, x.1.pos))
        = some (true, 0, 0, 0)
      ∧ (make_client (fun _ => "hi".toList)
          (transport.of_chunks
            ["GET / HTTP/1.1\r\nConnection: Keep-Alive\r\nX: ".toList
                ++ List.replicate 977 'a' ++ "\r\n\r\n".toList,
              "GET / HTTP/1.1\r\n\r\n".toList])).map
          (fun s => (s.stream.received.map (fun e => (e.1, e.2.length)),
            s.stream.incoming, s.stream.output))
        = some ([(1024, 1024), (0, 0)], ["GET / HTTP/1.1\r\n\r\n".toList],
            "HTTP/1.1 200 OK\r\nContent-Length: 2\r\n\r\nhi".toList
              ++ "HTTP/1.1 550 ERROR\r\nContent-Length: 0\r\n\r\n".toList) := by
  decide!

end Http
